import Mathlib

/-!
# Verification of the concurrent sorted-set implementations

This development shallowly embeds the two list-based set implementations of
the repository (`src/list_set/fine_grained.rs` and
`src/list_set/optimistic_fine_grained.rs`) and settles the specification
claims against them.

Conventions of the embedding:
* Keys are `Int` (the Rust code is generic over `T : Ord`; tests use integers).
* The fine-grained (lock-coupling) set is modelled by the list of keys hanging
  off `head`, in link order.  Sequential execution of each operation is a pure
  function on that list; each loop of the source is a structural recursion.
* The optimistic set is modelled by an explicit heap: a list of nodes
  (addressed by index) each holding a key and a tagged pointer, plus the head
  pointer.  Tagged pointers (`crossbeam_epoch::Shared` with a mark bit)
  become a record of an optional address and a tag bit.  Atomic loads,
  stores, `compare_exchange` and `fetch_or` act on link locations of this
  heap.  `defer_destroy` is recorded as a list of deferred addresses.
* The sequence-lock primitive (`src/lock/seqlock.rs` is declared in
  `src/lock/mod.rs` but its code is not part of the sources; the spec lists
  it as a consumed collaborator).  Modelled from the spec: a read-validated
  snapshot of a guarded slot behaves, in a data-race-free execution, exactly
  like a direct load of the slot, and `write_lock`-based updates like direct
  stores; `finish()` validation always succeeds in such an execution.
  Accordingly `read_lock().load(..)` is embedded as `loadLoc` and
  `write_lock()` updates as `storeLoc`/`setNext`.
* Loops whose termination depends on the heap shape take explicit fuel and
  return `Option`; `none` means the fuel ran out (or an invalid dereference
  that the source marks as impossible was attempted).
-/

set_option autoImplicit false

namespace RustConcurrent

/-! ## Fine-grained lock-coupling set (`fine_grained.rs`)

The state is the list of keys in link order starting at `head`. -/

/-- Embeds `FineGrainedListSet::find` (fine_grained.rs:80-97): starting at `head`,
walk the chain; stop with `true` at the first node whose key *equals* the
search key, with `false` at the end of the chain.  The returned number is the
index of the link the cursor holds at the stop point (0 = the `head` link,
`i` = the `next` link of the `i`-th node). -/
def fgFindAux (k : Int) : List Int → Nat → Bool × Nat
  | [], i => (false, i)
  | x :: xs, i => if x = k then (true, i) else fgFindAux k xs (i + 1)

/-- Runs `FineGrainedListSet::find` from the `head` link. -/
def fgFind (l : List Int) (k : Int) : Bool × Nat :=
  fgFindAux k l 0

/-- Embeds `FineGrainedListSet::contains` (fine_grained.rs:100-102): `find(key).0`. -/
def fgContains (l : List Int) (k : Int) : Bool :=
  (fgFind l k).1

/-- The claim-side description of `find` ("stop when current ≥ key or the
chain ends"), written from the spec's words for comparison with `fgFindAux`:
stop at the first node whose key is greater than or equal to the search key,
found iff that node's key equals the search key. -/
def specFindAux (k : Int) : List Int → Nat → Bool × Nat
  | [], i => (false, i)
  | x :: xs, i => if k ≤ x then (decide (x = k), i) else specFindAux k xs (i + 1)

/-- The claim-side `find` from the `head` link. -/
def specFind (l : List Int) (k : Int) : Bool × Nat :=
  specFindAux k l 0

/-- The mutating walk of `FineGrainedListSet::insert` (fine_grained.rs:118-147):
performed after (and separately from) the unlocked `contains` check.  At a
non-null link to node `x :: xs`: if `x < key` descend (appending at the end
when the next link is null), otherwise splice the new node in front of `x`.
The walk never re-checks existence: it inserts unconditionally. -/
def fgInsertLoop (k : Int) : List Int → List Int
  | [] => [k]
  | x :: xs => if x < k then x :: fgInsertLoop k xs else k :: x :: xs

/-- The locked phase of `FineGrainedListSet::insert` (fine_grained.rs:118-147):
lock `head`; if null, the new node becomes the whole chain, else run the walk. -/
def fgInsertWalk (l : List Int) (k : Int) : List Int :=
  if l = [] then [k] else fgInsertLoop k l

/-- Embeds `FineGrainedListSet::insert` (fine_grained.rs:108-148): an unlocked
`contains` check first (all its locks are released before the walk starts),
then the locked mutating walk. -/
def fgInsert (l : List Int) (k : Int) : Bool × List Int :=
  if fgContains l k then (false, l) else (true, fgInsertWalk l k)

/-- The locked removal walk of `FineGrainedListSet::remove`
(fine_grained.rs:161-179): walk to the first node whose key equals `k`;
`none` if the chain ends first (the source then returns `false`), otherwise
unlink that node. -/
def fgRemoveWalk (k : Int) : List Int → Option (List Int)
  | [] => none
  | x :: xs => if x = k then some xs else (fgRemoveWalk k xs).map (x :: ·)

/-- Embeds `FineGrainedListSet::remove` (fine_grained.rs:151-181): an unlocked
`contains` check first, then the locked walk with its own null re-check. -/
def fgRemove (l : List Int) (k : Int) : Bool × List Int :=
  if fgContains l k then
    match fgRemoveWalk k l with
    | none => (false, l)
    | some l' => (true, l')
  else (false, l)

/-- Embeds `Iter::next` for the fine-grained set (fine_grained.rs:197-208): it visits
every node in link order; collecting all yielded elements returns the chain. -/
def fgIterColl : List Int → List Int
  | [] => []
  | x :: xs => x :: fgIterColl xs

/-! ## Reference finite-set model

Written from the claim's words ("a reference finite-set model — insert(key)
returns true iff the key was absent (and the key is present afterwards),
remove(key) returns true iff the key was present (and absent afterwards),
contains(key) returns true iff the key is present"). -/

/-- One operation of the capability contract. -/
inductive Op where
  | containsOp (k : Int)
  | insertOp (k : Int)
  | removeOp (k : Int)
  deriving DecidableEq, Repr

/-- One step of the reference finite-set model on a list-of-members state. -/
def refStep (s : List Int) : Op → Bool × List Int
  | .containsOp k => (s.contains k, s)
  | .insertOp k => if s.contains k then (false, s) else (true, k :: s)
  | .removeOp k => (s.contains k, s.filter (· ≠ k))

/-- Replaying a sequence of operations against the reference model,
collecting the boolean results. -/
def refRun (s : List Int) : List Op → List Bool
  | [] => []
  | op :: ops => (refStep s op).1 :: refRun (refStep s op).2 ops

/-- One step of the fine-grained set. -/
def fgStep (l : List Int) : Op → Bool × List Int
  | .containsOp k => (fgContains l k, l)
  | .insertOp k => fgInsert l k
  | .removeOp k => fgRemove l k

/-- Replaying a sequence of operations against the fine-grained set,
collecting the boolean results and the final chain. -/
def fgRun (l : List Int) : List Op → List Bool × List Int
  | [] => ([], l)
  | op :: ops =>
    let r := fgRun (fgStep l op).2 ops
    ((fgStep l op).1 :: r.1, r.2)

/-! ### Basic facts about the fine-grained model -/

theorem fgFindAux_fst (k : Int) (l : List Int) (i : Nat) :
    (fgFindAux k l i).1 = l.contains k := by
  induction l generalizing i with
  | nil => simp [fgFindAux]
  | cons x xs ih =>
    by_cases hx : x = k
    · simp [fgFindAux, hx, List.contains_cons]
    · simp only [fgFindAux, if_neg hx, ih, List.contains_cons]
      have : (k == x) = false := by
        simp only [beq_eq_false_iff_ne, ne_eq]
        exact fun h => hx h.symm
      simp [this]

theorem fgContains_eq (l : List Int) (k : Int) : fgContains l k = l.contains k := by
  simp [fgContains, fgFind, fgFindAux_fst]

theorem fgContains_iff (l : List Int) (k : Int) : fgContains l k = true ↔ k ∈ l := by
  simp [fgContains_eq]

/-- Membership after the insert walk. -/
theorem mem_fgInsertLoop (k x : Int) (l : List Int) :
    x ∈ fgInsertLoop k l ↔ x = k ∨ x ∈ l := by
  induction l with
  | nil => simp [fgInsertLoop]
  | cons y ys ih =>
    by_cases hy : y < k
    · simp [fgInsertLoop, hy, ih]; tauto
    · simp [fgInsertLoop, hy]

theorem mem_fgInsertWalk (k x : Int) (l : List Int) :
    x ∈ fgInsertWalk l k ↔ x = k ∨ x ∈ l := by
  by_cases h : l = [] <;> simp [fgInsertWalk, h, mem_fgInsertLoop]

/-- The insert walk preserves strict sortedness when the key is absent. -/
theorem sorted_fgInsertLoop (k : Int) (l : List Int)
    (hs : l.Pairwise (· < ·)) (hk : k ∉ l) :
    (fgInsertLoop k l).Pairwise (· < ·) := by
  induction l with
  | nil => simp [fgInsertLoop]
  | cons y ys ih =>
    rcases List.pairwise_cons.1 hs with ⟨hy, hys⟩
    by_cases hlt : y < k
    · have : k ∉ ys := fun hmem => hk (List.mem_cons_of_mem _ hmem)
      have ih' := ih hys this
      simp only [fgInsertLoop, if_pos hlt]
      refine List.pairwise_cons.2 ⟨?_, ih'⟩
      intro a ha
      rcases (mem_fgInsertLoop k a ys).1 ha with rfl | ha'
      · exact hlt
      · exact hy a ha'
    · have hne : y ≠ k := fun h => hk (by simp [h])
      have hkly : k < y := lt_of_le_of_ne (not_lt.1 hlt) (Ne.symm hne)
      simp only [fgInsertLoop, if_neg hlt]
      refine List.pairwise_cons.2 ⟨?_, hs⟩
      intro a ha
      rcases List.mem_cons.1 ha with rfl | ha'
      · exact hkly
      · exact lt_trans hkly (hy a ha')

theorem sorted_fgInsertWalk (k : Int) (l : List Int)
    (hs : l.Pairwise (· < ·)) (hk : k ∉ l) :
    (fgInsertWalk l k).Pairwise (· < ·) := by
  by_cases h : l = []
  · simp [fgInsertWalk, h]
  · simpa [fgInsertWalk, h] using sorted_fgInsertLoop k l hs hk

/-- When the key is present, the removal walk succeeds and removes exactly
the first occurrence; on a duplicate-free chain the result is the chain
without the key. -/
theorem fgRemoveWalk_eq (k : Int) (l : List Int) (hk : k ∈ l) (hnd : l.Nodup) :
    fgRemoveWalk k l = some (l.filter (· ≠ k)) := by
  induction l with
  | nil => cases hk
  | cons y ys ih =>
    rcases List.nodup_cons.1 hnd with ⟨hyn, hysn⟩
    by_cases hy : y = k
    · subst hy
      have hf : (y :: ys).filter (· ≠ y) = ys := by
        have h0 : List.filter (· ≠ y) ys = ys :=
          List.filter_eq_self.2 fun a ha => by
            simp only [ne_eq, decide_eq_true_eq]
            exact fun h => hyn (h ▸ ha)
        simp [List.filter_cons, h0]
        exact fun a ha h => hyn (h ▸ ha)
      rw [hf]
      simp [fgRemoveWalk]
    · have hk' : k ∈ ys := by
        rcases List.mem_cons.1 hk with rfl | h
        · exact absurd rfl hy
        · exact h
      simp [fgRemoveWalk, hy, ih hk' hysn]

theorem sorted_filter (k : Int) (l : List Int) (hs : l.Pairwise (· < ·)) :
    (l.filter (· ≠ k)).Pairwise (· < ·) :=
  List.Pairwise.filter _ hs

theorem mem_filter_ne (k x : Int) (l : List Int) :
    x ∈ l.filter (· ≠ k) ↔ x ∈ l ∧ x ≠ k := by
  simp [List.mem_filter]

/-- Strictly sorted lists have no duplicates. -/
theorem nodup_of_sorted (l : List Int) (hs : l.Pairwise (· < ·)) : l.Nodup :=
  hs.imp ne_of_lt

/-! ## Optimistic fine-grained set (`optimistic_fine_grained.rs`)

The heap model: nodes live at `Nat` addresses (indices into a list that only
grows; `defer_destroy` merely records the address, matching deferred
reclamation).  A `Ptr` is a `crossbeam_epoch` shared pointer: an optional
address plus the deletion tag bit. -/

/-- A tagged pointer (`Shared<Node<T>>` with its tag bit). -/
structure Ptr where
  addr : Option Nat
  tag : Bool
  deriving DecidableEq, Repr

/-- The null pointer (`Shared::null()`). -/
def Ptr.null : Ptr := ⟨none, false⟩

/-- Embeds `Shared::with_tag(0)`. -/
def Ptr.untag (p : Ptr) : Ptr := ⟨p.addr, false⟩

/-- A list node (`Node<T>`): key plus the guarded `next` link. -/
structure ONode where
  data : Int
  next : Ptr
  deriving DecidableEq, Repr

/-- A link location: the set's `head` slot or the `next` field of a node. -/
inductive Loc where
  | headLoc
  | nodeLoc (i : Nat)
  deriving DecidableEq, Repr

/-- The optimistic set's state: the `head` link and the node store. -/
structure OHeap where
  head : Ptr
  nodes : List ONode
  deriving DecidableEq, Repr

/-- Embeds `OptimisticFineGrainedListSet::new()`. -/
def emptyHeap : OHeap := ⟨Ptr.null, []⟩

/-- An atomic load of a link location (`read_lock().load(..)`; sequence-lock
validation always succeeds in a data-race-free execution, see the header).
`none` = dereference of an invalid address. -/
def loadLoc (h : OHeap) : Loc → Option Ptr
  | .headLoc => some h.head
  | .nodeLoc i => (h.nodes.get? i).map ONode.next

/-- Overwrite the `next` link of node `i` (no-op on an invalid address). -/
def setNext (ns : List ONode) (i : Nat) (p : Ptr) : List ONode :=
  match ns.get? i with
  | none => ns
  | some nd => ns.set i ⟨nd.data, p⟩

/-- An atomic store to a link location (`write_lock().store(..)` or a
successful `compare_exchange`). -/
def storeLoc (h : OHeap) (l : Loc) (p : Ptr) : OHeap :=
  match l with
  | .headLoc => ⟨p, h.nodes⟩
  | .nodeLoc i => ⟨h.head, setNext h.nodes i p⟩

/-- The result of `Cursor::find`'s finding phase
(optimistic_fine_grained.rs:51-87): found flag, the predecessor link, the
resting pointer, the predecessor's remembered target `prev_next`, and (ghost
instrumentation, not a program value) the addresses of the tagged nodes
skipped since the predecessor link last advanced. -/
structure LoopRes where
  found : Bool
  prev : Loc
  curr : Ptr
  prevNext : Ptr
  run : List Nat
  deriving DecidableEq, Repr

/-- The finding phase of `Cursor::find` (optimistic_fine_grained.rs:51-87).
At each step: a null `curr` ends the walk not-found; a tagged `next` means
the node is logically deleted — advance `curr` to `next.with_tag(0)` without
comparing; otherwise compare keys: less — advance both `curr` and `prev`
(resetting the skipped run), equal — stop found, greater — stop not-found. -/
def findLoop (h : OHeap) (key : Int) :
    Nat → Loc → Ptr → Ptr → List Nat → Option LoopRes
  | 0, _, _, _, _ => none
  | fuel + 1, prev, curr, prevNext, run =>
    match curr.addr with
    | none => some ⟨false, prev, curr, prevNext, run⟩
    | some i =>
      match h.nodes.get? i with
      | none => none
      | some nd =>
        if nd.next.tag then
          findLoop h key fuel prev nd.next.untag prevNext (run ++ [i])
        else if nd.data < key then
          findLoop h key fuel (.nodeLoc i) nd.next nd.next []
        else if nd.data = key then
          some ⟨true, prev, curr, prevNext, run⟩
        else
          some ⟨false, prev, curr, prevNext, run⟩

/-- The deferred-destruction walk of `Cursor::find`
(optimistic_fine_grained.rs:106-115): from the predecessor's old target up to
(excluding) the resting node, following raw `next` pointers, scheduling every
node on the way. -/
def destroyLoop (h : OHeap) (curr : Ptr) : Nat → Ptr → List Nat → Option (List Nat)
  | 0, _, _ => none
  | fuel + 1, node, acc =>
    if node.untag = curr then some acc
    else
      match node.addr with
      | none => none
      | some i =>
        match h.nodes.get? i with
        | none => none
        | some nd => destroyLoop h curr fuel nd.next (acc ++ [i])

/-- The cleanup phase of `Cursor::find` (optimistic_fine_grained.rs:89-117):
if predecessor and resting node were adjacent, nothing to do; otherwise one
`compare_exchange` on the predecessor link from its old target to the resting
node — on success excise and schedule the skipped run, on failure give up
(`Err`, heap unchanged).  The `Bool` records whether a CAS succeeded. -/
def findCleanup (h : OHeap) (prev : Loc) (prevNext curr : Ptr) (fuel : Nat) :
    Option (Except OHeap (OHeap × List Nat × Bool)) :=
  if prevNext = curr then some (.ok (h, [], false))
  else
    match loadLoc h prev with
    | none => none
    | some obs =>
      if obs = prevNext then
        let h' := storeLoc h prev curr
        match destroyLoop h' curr fuel prevNext [] with
        | none => none
        | some d => some (.ok (h', d, true))
      else some (.error h)

/-- Embeds `Cursor::find` (optimistic_fine_grained.rs:46-118), started from the head
cursor (`OptimisticFineGrainedListSet::head`, lines 129-133): the finding
phase followed by the cleanup phase.  `Except.error` is the `Err(())` the
outer `find` retries on; it carries the (unchanged) heap. -/
def cursorFind (h : OHeap) (key : Int) (fuel : Nat) :
    Option (Except OHeap (Bool × Loc × Ptr × OHeap × List Nat)) :=
  match findLoop h key fuel .headLoc h.head h.head [] with
  | none => none
  | some r =>
    match findCleanup h r.prev r.prevNext r.curr fuel with
    | none => none
    | some (.error h') => some (.error h')
    | some (.ok (h', d, _)) => some (.ok (r.found, r.prev, r.curr, h', d))

/-- Embeds `OptimisticFineGrainedListSet::find` (optimistic_fine_grained.rs:137-144):
loop a fresh head cursor's `find` until it returns `Ok`; mirrors the
`Result` type of the source (`Except.error` would be a value the `unwrap`s
in contains/insert/remove panic on — the loop never produces it). -/
def oFindE (key : Int) : Nat → OHeap →
    Option (Except Unit (Bool × Loc × Ptr × OHeap × List Nat))
  | 0, _ => none
  | fuel + 1, h =>
    match cursorFind h key fuel with
    | none => none
    | some (.error h') => oFindE key fuel h'
    | some (.ok r) => some (.ok r)

/-- Embeds `OptimisticFineGrainedListSet::contains`
(optimistic_fine_grained.rs:150-156): `find(key).unwrap()`, keeping the found
flag.  The `unwrap` of an `Err` (a panic) is modelled as `none`. -/
def oContains (h : OHeap) (key : Int) (fuel : Nat) : Option (Bool × OHeap) :=
  match oFindE key fuel h with
  | some (.ok r) => some (r.1, r.2.2.2.1)
  | _ => none

/-- The retry loop of `OptimisticFineGrainedListSet::insert`
(optimistic_fine_grained.rs:180-202).  The node was allocated once, before
the loop, at address `addr`; each attempt re-runs `find`, stores the resting
pointer into the node's link, and CASes the predecessor link from the resting
pointer to the node; a CAS failure reuses the node and retries. -/
def oInsertLoop (key : Int) (addr : Nat) : Nat → OHeap → Option (Bool × OHeap)
  | 0, _ => none
  | fuel + 1, h =>
    match oFindE key fuel h with
    | none => none
    | some (.error _) => none
    | some (.ok (found, prev, curr, h', _)) =>
      if found then some (false, h')
      else
        let h2 : OHeap := ⟨h'.head, setNext h'.nodes addr curr⟩
        match loadLoc h2 prev with
        | none => none
        | some obs =>
          if obs = curr then some (true, storeLoc h2 prev ⟨some addr, false⟩)
          else oInsertLoop key addr fuel h2

/-- Embeds `OptimisticFineGrainedListSet::insert`
(optimistic_fine_grained.rs:177-203): allocate the node (with a null link)
once, then run the retry loop. -/
def oInsert (h : OHeap) (key : Int) (fuel : Nat) : Option (Bool × OHeap) :=
  oInsertLoop key h.nodes.length fuel ⟨h.head, h.nodes ++ [⟨key, Ptr.null⟩]⟩

/-- Outcome of the post-`find` part of `remove`: retry (the tag was already
set — another remover won) or done, with the reported boolean and the
addresses scheduled for deferred destruction. -/
inductive RemRes where
  | retryRes (h : OHeap)
  | doneRes (b : Bool) (h : OHeap) (deferred : List Nat)
  deriving DecidableEq, Repr

/-- The mutation phase of `OptimisticFineGrainedListSet::remove`
(optimistic_fine_grained.rs:214-244), given the cursor `find` produced:
`fetch_or(1)` on the found node's link (the old value is `next`); if the tag
was already set, retry; otherwise CAS the predecessor link from the found
node to `next` — schedule the node for deferred destruction exactly when the
CAS succeeds — and report `true` either way. -/
def removePhys (h : OHeap) (prev : Loc) (curr : Ptr) : Option RemRes :=
  match curr.addr with
  | none => none
  | some i =>
    match h.nodes.get? i with
    | none => none
    | some nd =>
      let h1 : OHeap := ⟨h.head, setNext h.nodes i ⟨nd.next.addr, true⟩⟩
      if nd.next.tag then some (.retryRes h1)
      else
        match loadLoc h1 prev with
        | none => none
        | some obs =>
          if obs = curr then some (.doneRes true (storeLoc h1 prev nd.next) [i])
          else some (.doneRes true h1 [])

/-- Embeds `OptimisticFineGrainedListSet::remove`
(optimistic_fine_grained.rs:205-246): `find`, return `false` when not found,
otherwise run the mutation phase, retrying `find` when the tag was already
set. -/
def oRemoveLoop (key : Int) : Nat → OHeap → Option (Bool × OHeap)
  | 0, _ => none
  | fuel + 1, h =>
    match oFindE key fuel h with
    | none => none
    | some (.error _) => none
    | some (.ok (found, prev, curr, h', _)) =>
      if found then
        match removePhys h' prev curr with
        | none => none
        | some (.retryRes h2) => oRemoveLoop key fuel h2
        | some (.doneRes b h2 _) => some (b, h2)
      else some (false, h')

/-- Iterator state (`Iter`, optimistic_fine_grained.rs:249-254): the
predecessor link and the remembered current pointer. -/
structure OIter where
  prev : Loc
  curr : Ptr
  deriving DecidableEq, Repr

/-- Embeds `OptimisticFineGrainedListSet::iter`
(optimistic_fine_grained.rs:260-265): a head cursor. -/
def headIter (h : OHeap) : OIter := ⟨.headLoc, h.head⟩

/-- Embeds `Iter::next` (optimistic_fine_grained.rs:271-285): re-read the
predecessor link; if it no longer equals the remembered current pointer,
yield the validation-failure signal `Some(Err(()))` — the cursor is left
unchanged.  Otherwise a null current pointer ends the iteration (`None`);
else yield the node's key and advance. -/
def iterNext (h : OHeap) (it : OIter) : Option (Option (Except Unit Int) × OIter) :=
  match loadLoc h it.prev with
  | none => none
  | some prevNext =>
    if it.curr ≠ prevNext then some (some (.error ()), it)
    else
      match it.curr.addr with
      | none => some (none, it)
      | some i =>
        match h.nodes.get? i with
        | none => none
        | some nd => some (some (.ok nd.data), ⟨.nodeLoc i, nd.next⟩)

/-- Repeated `Iter::next` on a quiescent heap, collecting yielded items until
end-of-sequence. -/
def iterColl (h : OHeap) : Nat → OIter → Option (List (Except Unit Int))
  | 0, _ => none
  | fuel + 1, it =>
    match iterNext h it with
    | none => none
    | some (none, _) => some []
    | some (some v, it') => (iterColl h fuel it').map (v :: ·)

/-- One step of the optimistic set (fuel bounds each internal retry loop). -/
def oStep (h : OHeap) (fuel : Nat) : Op → Option (Bool × OHeap)
  | .containsOp k => oContains h k fuel
  | .insertOp k => oInsert h k fuel
  | .removeOp k => oRemoveLoop k fuel h

/-- Replaying a sequence of operations against the optimistic set. -/
def oRun (fuel : Nat) : List Op → OHeap → Option (List Bool × OHeap)
  | [], h => some ([], h)
  | op :: ops, h =>
    match oStep h fuel op with
    | none => none
    | some (b, h') => (oRun fuel ops h').map (fun r => (b :: r.1, r.2))

/-- The shape the finding phase leaves behind (used as a hypothesis on the
cleanup phase): `prevNext` points to the first skipped node, each skipped
node's link is tagged and leads (tag stripped) to the next one, and the last
leads to the resting pointer.  An empty run means predecessor and resting
node are adjacent. -/
def taggedRun (h : OHeap) : Ptr → List Nat → Ptr → Bool
  | pn, [], c => pn == c
  | pn, i :: rest, c =>
    pn == ⟨some i, false⟩ &&
      match h.nodes.get? i with
      | none => false
      | some nd => nd.next.tag && taggedRun h nd.next.untag rest c

/-- The resting pointer of the finding phase is null or a node whose link is
untagged (the finding phase only stops on such nodes). -/
def restOk (h : OHeap) (c : Ptr) : Bool :=
  match c.addr with
  | none => true
  | some i =>
    match h.nodes.get? i with
    | none => false
    | some nd => !nd.next.tag

/-! ### The reachable chain of the optimistic heap

`PSeg h q l` says the nodes listed in `l` (address/key pairs) form a linked
spine in `h`: each node's `next` is the untagged pointer to the next listed
node, and the last one's `next` is `q`.  The entry pointer of the spine is
`segHead l q`.  The chain hanging off `head` is a spine ending at null. -/

/-- The pointer to the first node of a spine (or the final pointer `q` when
the spine is empty). -/
def segHead : List (Nat × Int) → Ptr → Ptr
  | [], q => q
  | (j, _) :: _, _ => ⟨some j, false⟩

/-- Holds when `l` is a linked spine in `h` ending at pointer `q`. -/
def PSeg (h : OHeap) (q : Ptr) : List (Nat × Int) → Prop
  | [] => True
  | (i, d) :: t => h.nodes.get? i = some ⟨d, segHead t q⟩ ∧ PSeg h q t

/-- The chain reachable from `head`. -/
def Chain (h : OHeap) (l : List (Nat × Int)) : Prop :=
  h.head = segHead l Ptr.null ∧ PSeg h Ptr.null l

/-- The keys of a chain, in link order. -/
def vals (l : List (Nat × Int)) : List Int := l.map Prod.snd

/-- The addresses of a chain, in link order. -/
def addrs (l : List (Nat × Int)) : List Nat := l.map Prod.fst

/-- Node predicate used by the traversal: key below the search key. -/
def keyLtB (key : Int) (p : Nat × Int) : Bool := decide (p.2 < key)

/-- Whether the node the traversal rests on carries the search key. -/
def foundB (key : Int) : List (Nat × Int) → Bool
  | [] => false
  | (_, d) :: _ => decide (d = key)

/-- The address of the last node of a spine, if any. -/
def lastAddr (l : List (Nat × Int)) : Option Nat := (addrs l).getLast?

/-- The link location the cursor's `prev` guard holds after walking a spine
`l` from location `prev`: still `prev` when the spine is empty, else the
last spine node's `next` field. -/
def exitLoc (prev : Loc) (l : List (Nat × Int)) : Loc :=
  match lastAddr l with
  | none => prev
  | some j => .nodeLoc j

theorem segHead_append (l₁ l₂ : List (Nat × Int)) (q : Ptr) :
    segHead (l₁ ++ l₂) q = segHead l₁ (segHead l₂ q) := by
  cases l₁ with
  | nil => rfl
  | cons p t => cases p; rfl

theorem segHead_tag (l : List (Nat × Int)) : (segHead l Ptr.null).tag = false := by
  cases l with
  | nil => rfl
  | cons p t => cases p; rfl

theorem segHead_of_ne (l : List (Nat × Int)) (q q' : Ptr) (hne : l ≠ []) :
    segHead l q = segHead l q' := by
  cases l with
  | nil => exact absurd rfl hne
  | cons p t => cases p; rfl

theorem PSeg_append (h : OHeap) (q : Ptr) (l₁ l₂ : List (Nat × Int)) :
    PSeg h q (l₁ ++ l₂) ↔ PSeg h (segHead l₂ q) l₁ ∧ PSeg h q l₂ := by
  induction l₁ with
  | nil => simp [PSeg]
  | cons p t ih =>
    cases p with
    | mk i d =>
      simp only [List.cons_append, PSeg, List.append_eq, ih, segHead_append, and_assoc]

/-- Every listed node exists in the heap, with its listed key. -/
theorem PSeg_mem_get (h : OHeap) (q : Ptr) :
    ∀ (l : List (Nat × Int)) (i : Nat) (d : Int), PSeg h q l → (i, d) ∈ l →
    ∃ nx, h.nodes.get? i = some ⟨d, nx⟩ := by
  intro l
  induction l with
  | nil => intro i d _ hm; cases hm
  | cons p t ih =>
    intro i d hs hm
    cases p with
    | mk j e =>
      rcases hs with ⟨hget, ht⟩
      rcases List.mem_cons.1 hm with heq | hm'
      · cases heq; exact ⟨_, hget⟩
      · exact ih i d ht hm'

/-- Every listed address is a valid index of the node store. -/
theorem PSeg_addr_lt (h : OHeap) (q : Ptr) (l : List (Nat × Int))
    (hs : PSeg h q l) : ∀ j ∈ addrs l, j < h.nodes.length := by
  intro j hj
  rcases List.mem_map.1 hj with ⟨⟨i, d⟩, hm, rfl⟩
  rcases PSeg_mem_get h q l _ _ hs hm with ⟨nx, hget⟩
  rcases List.get?_eq_some.1 hget with ⟨hlt, _⟩
  exact hlt

/-- A spine only looks at the listed nodes: any heap agreeing on them
carries the same spine. -/
theorem PSeg_congr (h h' : OHeap) (q : Ptr) :
    ∀ (l : List (Nat × Int)), PSeg h q l →
    (∀ j ∈ addrs l, h'.nodes.get? j = h.nodes.get? j) → PSeg h' q l := by
  intro l
  induction l with
  | nil => intro _ _; trivial
  | cons p t ih =>
    cases p with
    | mk i d =>
      intro hs hag
      rcases hs with ⟨hget, ht⟩
      refine ⟨?_, ih ht ?_⟩
      · rw [hag i (by simp [addrs])]; exact hget
      · intro j hj; exact hag j (by simp [addrs] at hj ⊢; exact Or.inr hj)

theorem getLast?_mem_of_eq {α : Type} :
    ∀ (L : List α) (j : α), L.getLast? = some j → j ∈ L := by
  intro L
  induction L with
  | nil => intro j hj; cases hj
  | cons a t ih =>
    intro j hj
    cases t with
    | nil =>
      rw [List.getLast?_singleton] at hj
      cases hj
      exact List.mem_singleton_self a
    | cons b t' =>
      rw [List.getLast?_cons_cons] at hj
      exact List.mem_cons_of_mem _ (ih j hj)

theorem lastAddr_mem (l : List (Nat × Int)) (j : Nat) (hl : lastAddr l = some j) :
    j ∈ addrs l :=
  getLast?_mem_of_eq (addrs l) j hl

theorem lastAddr_eq_none (l : List (Nat × Int)) : lastAddr l = none ↔ l = [] := by
  unfold lastAddr
  rw [List.getLast?_eq_none_iff]
  simp [addrs]

/-- Cases for the exit location: the starting link, or a listed node's link. -/
theorem exitLoc_cases (prev : Loc) (l : List (Nat × Int)) :
    exitLoc prev l = prev ∨ ∃ j ∈ addrs l, exitLoc prev l = Loc.nodeLoc j := by
  unfold exitLoc
  cases hl : lastAddr l with
  | none => exact Or.inl rfl
  | some j => exact Or.inr ⟨j, lastAddr_mem l j hl, rfl⟩

theorem exitLoc_cons (prev : Loc) (i : Nat) (d : Int) (t : List (Nat × Int))
    (ht : t ≠ []) : exitLoc prev ((i, d) :: t) = exitLoc prev t := by
  unfold exitLoc lastAddr
  cases t with
  | nil => exact absurd rfl ht
  | cons p t' =>
    cases p with
    | mk j e => simp [addrs, List.getLast?_cons_cons]

theorem setNext_get_ne (ns : List ONode) (j m : Nat) (p : Ptr) (hne : m ≠ j) :
    (setNext ns j p).get? m = ns.get? m := by
  unfold setNext
  cases hj : ns.get? j with
  | none => rfl
  | some nd => exact List.get?_set_ne _ _ (fun h => hne h.symm)

theorem setNext_get_eq (ns : List ONode) (j : Nat) (p : Ptr) (nd : ONode)
    (hj : ns.get? j = some nd) : (setNext ns j p).get? j = some ⟨nd.data, p⟩ := by
  unfold setNext
  rw [hj]
  exact List.get?_set_eq_of_lt _ (List.get?_eq_some.1 hj).1

/-- A nonempty spine has a last address, and the exit location is its link. -/
theorem exitLoc_of_ne (prev : Loc) (l : List (Nat × Int)) (hne : l ≠ []) :
    ∃ j ∈ addrs l, exitLoc prev l = Loc.nodeLoc j := by
  cases hl : lastAddr l with
  | none => exact absurd ((lastAddr_eq_none l).1 hl) hne
  | some j => exact ⟨j, lastAddr_mem l j hl, by simp [exitLoc, hl]⟩

/-- Rewriting the last link of a nonempty spine re-aims it at pointer `x`:
the spine persists, now ending at `x`. -/
theorem PSeg_store_last (x : Ptr) :
    ∀ (l : List (Nat × Int)) (q : Ptr) (h : OHeap) (prev : Loc),
    PSeg h q l → (addrs l).Nodup → l ≠ [] →
    PSeg (storeLoc h (exitLoc prev l) x) x l := by
  intro l
  induction l with
  | nil => intro q h prev _ _ hne; exact absurd rfl hne
  | cons p t ih =>
    cases p with
    | mk i d =>
      intro q h prev hs hnd _
      rcases hs with ⟨hget, ht⟩
      have hnd' : (addrs ((i, d) :: t)).Nodup = (i :: addrs t).Nodup := by
        simp [addrs]
      rw [hnd'] at hnd
      rcases List.nodup_cons.1 hnd with ⟨hi, hndt⟩
      cases t with
      | nil =>
        have hexit : exitLoc prev [(i, d)] = Loc.nodeLoc i := by
          simp [exitLoc, lastAddr, addrs, List.getLast?]
        rw [hexit]
        exact ⟨setNext_get_eq h.nodes i x _ hget, trivial⟩
      | cons p' t' =>
        have htne : (p' :: t') ≠ [] := by simp
        rw [exitLoc_cons prev i d _ htne]
        rcases exitLoc_of_ne prev (p' :: t') htne with ⟨j, hjmem, hexit⟩
        have hij : i ≠ j := fun hij => hi (hij ▸ hjmem)
        have hseg : segHead (p' :: t') x = segHead (p' :: t') q := by
          cases p'; rfl
        rw [hexit]
        constructor
        · show (setNext h.nodes j x).get? i = some ⟨d, segHead (p' :: t') x⟩
          rw [setNext_get_ne h.nodes j i x hij, hseg]
          exact hget
        · have hih := ih q h prev ht hndt htne
          rw [hexit] at hih
          exact hih

theorem exitLoc_cons_base (prev : Loc) (i : Nat) (d : Int) (t : List (Nat × Int)) :
    exitLoc prev ((i, d) :: t) = exitLoc (.nodeLoc i) t := by
  cases t with
  | nil => simp [exitLoc, lastAddr, addrs, List.getLast?]
  | cons p t' =>
    rw [exitLoc_cons prev i d _ (by simp)]
    rcases exitLoc_of_ne prev (p :: t') (by simp) with ⟨j, _, hj⟩
    rcases exitLoc_of_ne (.nodeLoc i) (p :: t') (by simp) with ⟨j', _, hj'⟩
    rw [hj, hj']
    unfold exitLoc at hj hj'
    cases hl : lastAddr (p :: t') with
    | none => exact absurd ((lastAddr_eq_none _).1 hl) (by simp)
    | some m => rw [hl] at hj hj'; cases hj; cases hj'; rfl

/-! ### The finding phase on a quiescent well-formed chain

On a spine with no tagged links the finding phase of `Cursor::find` (a) never
takes the skip branch, so the ghost run stays empty and `prev_next` equals
the resting pointer, and (b) stops exactly at the boundary between the
strictly-below-key prefix and the rest. -/

theorem findLoop_spec (h : OHeap) (key : Int) :
    ∀ (l : List (Nat × Int)) (prev : Loc) (fuel : Nat),
    PSeg h Ptr.null l →
    loadLoc h prev = some (segHead l Ptr.null) →
    l.length + 1 ≤ fuel →
    findLoop h key fuel prev (segHead l Ptr.null) (segHead l Ptr.null) [] =
      some ⟨foundB key (l.dropWhile (keyLtB key)),
            exitLoc prev (l.takeWhile (keyLtB key)),
            segHead (l.dropWhile (keyLtB key)) Ptr.null,
            segHead (l.dropWhile (keyLtB key)) Ptr.null, []⟩ ∧
    loadLoc h (exitLoc prev (l.takeWhile (keyLtB key))) =
      some (segHead (l.dropWhile (keyLtB key)) Ptr.null) := by
  intro l
  induction l with
  | nil =>
    intro prev fuel _ hload hfuel
    match fuel, hfuel with
    | f + 1, _ =>
      constructor
      · show findLoop h key (f + 1) prev Ptr.null Ptr.null [] = _
        simp [findLoop, Ptr.null, List.takeWhile_nil, List.dropWhile_nil, foundB,
          exitLoc, lastAddr, addrs, segHead]
      · simpa [List.takeWhile_nil, List.dropWhile_nil, exitLoc, lastAddr, addrs] using hload
  | cons p t ih =>
    cases p with
    | mk i d =>
      intro prev fuel hs hload hfuel
      rcases hs with ⟨hget, ht⟩
      match fuel, hfuel with
      | f + 1, hfuel =>
        have hf : t.length + 1 ≤ f := by
          simpa [List.length_cons, Nat.succ_le_succ_iff] using hfuel
        have hstep : findLoop h key (f + 1) prev (segHead ((i, d) :: t) Ptr.null)
            (segHead ((i, d) :: t) Ptr.null) [] =
            (if (segHead t Ptr.null).tag then
              findLoop h key f prev (segHead t Ptr.null).untag
                (segHead ((i, d) :: t) Ptr.null) ([] ++ [i])
            else if d < key then
              findLoop h key f (.nodeLoc i) (segHead t Ptr.null) (segHead t Ptr.null) []
            else if d = key then
              some ⟨true, prev, segHead ((i, d) :: t) Ptr.null,
                segHead ((i, d) :: t) Ptr.null, []⟩
            else
              some ⟨false, prev, segHead ((i, d) :: t) Ptr.null,
                segHead ((i, d) :: t) Ptr.null, []⟩) := by
          show findLoop h key (f + 1) prev ⟨some i, false⟩ ⟨some i, false⟩ [] = _
          rw [findLoop]
          simp only [hget]
          rfl
        rw [segHead_tag t, if_neg (by simp)] at hstep
        by_cases hd : d < key
        · have hkl : keyLtB key (i, d) = true := by simp [keyLtB, hd]
          rw [List.takeWhile_cons_of_pos hkl, List.dropWhile_cons_of_pos hkl,
            exitLoc_cons_base]
          rw [hstep, if_pos hd]
          refine ih (.nodeLoc i) f ht ?_ hf
          show (h.nodes.get? i).map ONode.next = some (segHead t Ptr.null)
          rw [hget]
          rfl
        · have hkl : ¬keyLtB key (i, d) = true := by simp [keyLtB, hd]
          rw [List.takeWhile_cons_of_neg hkl, List.dropWhile_cons_of_neg hkl]
          by_cases he : d = key
          · rw [hstep, if_neg hd, if_pos he]
            refine ⟨?_, by simpa [exitLoc, lastAddr, addrs] using hload⟩
            simp [foundB, he, exitLoc, lastAddr, addrs]
          · rw [hstep, if_neg hd, if_neg he]
            refine ⟨?_, by simpa [exitLoc, lastAddr, addrs] using hload⟩
            simp [foundB, he, exitLoc, lastAddr, addrs]

/-- On a well-formed chain, one whole `Cursor::find` pass from the head
cursor leaves the heap unchanged, schedules nothing, and answers the
boundary cursor. -/
theorem cursorFind_spec (h : OHeap) (key : Int) (l : List (Nat × Int)) (fuel : Nat)
    (hc : Chain h l) (hfuel : l.length + 1 ≤ fuel) :
    cursorFind h key fuel =
      some (.ok (foundB key (l.dropWhile (keyLtB key)),
        exitLoc .headLoc (l.takeWhile (keyLtB key)),
        segHead (l.dropWhile (keyLtB key)) Ptr.null, h, [])) ∧
    loadLoc h (exitLoc .headLoc (l.takeWhile (keyLtB key))) =
      some (segHead (l.dropWhile (keyLtB key)) Ptr.null) := by
  rcases hc with ⟨hhead, hs⟩
  have hload : loadLoc h .headLoc = some (segHead l Ptr.null) := by
    show some h.head = _
    rw [hhead]
  have hfl := findLoop_spec h key l .headLoc fuel hs hload hfuel
  refine ⟨?_, hfl.2⟩
  unfold cursorFind
  rw [hhead, hfl.1]
  simp [findCleanup]

/-- On a well-formed chain the outer `find` returns after its first pass,
with the heap unchanged. -/
theorem oFindE_spec (h : OHeap) (key : Int) (l : List (Nat × Int)) (fuel : Nat)
    (hc : Chain h l) (hfuel : l.length + 2 ≤ fuel) :
    oFindE key fuel h =
      some (.ok (foundB key (l.dropWhile (keyLtB key)),
        exitLoc .headLoc (l.takeWhile (keyLtB key)),
        segHead (l.dropWhile (keyLtB key)) Ptr.null, h, [])) := by
  match fuel, hfuel with
  | f + 1, hfuel =>
    have hf : l.length + 1 ≤ f := by omega
    have hcf := cursorFind_spec h key l f hc hf
    unfold oFindE
    rw [hcf.1]

/-! ### Sorted-chain facts -/

/-- On a strictly sorted chain, resting on the boundary node decides
membership: the traversal's found flag is exactly `contains`. -/
theorem foundB_eq_contains (key : Int) :
    ∀ (l : List (Nat × Int)), (vals l).Pairwise (· < ·) →
    foundB key (l.dropWhile (keyLtB key)) = (vals l).contains key := by
  intro l
  induction l with
  | nil => intro _; rfl
  | cons p t ih =>
    cases p with
    | mk i d =>
      intro hsor
      have hsor' : (vals t).Pairwise (· < ·) ∧ ∀ x ∈ vals t, d < x := by
        have := List.pairwise_cons.1 hsor
        exact ⟨this.2, this.1⟩
      by_cases hd : d < key
      · have hkl : keyLtB key (i, d) = true := by simp [keyLtB, hd]
        rw [List.dropWhile_cons_of_pos hkl, ih hsor'.1]
        have hne : (key == d) = false := by
          simp only [beq_eq_false_iff_ne, ne_eq]
          exact fun he => absurd (he ▸ hd) (lt_irrefl _)
        show (vals t).contains key = (d :: vals t).contains key
        rw [List.contains_cons, hne, Bool.false_or]
      · have hkl : ¬keyLtB key (i, d) = true := by simp [keyLtB, hd]
        rw [List.dropWhile_cons_of_neg hkl]
        show foundB key ((i, d) :: t) = (d :: vals t).contains key
        rw [List.contains_cons]
        by_cases he : d = key
        · subst he
          simp [foundB]
        · have hgt : key < d := lt_of_le_of_ne (not_lt.1 hd) (fun h' => he h'.symm)
          have hnmem : key ∉ vals t := fun hmem =>
            absurd (lt_trans hgt (hsor'.2 key hmem)) (lt_irrefl _)
          have hb1 : (key == d) = false := by
            simp only [beq_eq_false_iff_ne, ne_eq]
            exact fun h' => absurd (h' ▸ hgt) (lt_irrefl _)
          simp [foundB, he, hb1, hnmem]

theorem vals_append (l₁ l₂ : List (Nat × Int)) :
    vals (l₁ ++ l₂) = vals l₁ ++ vals l₂ := List.map_append _ _ _

theorem addrs_append (l₁ l₂ : List (Nat × Int)) :
    addrs (l₁ ++ l₂) = addrs l₁ ++ addrs l₂ := List.map_append _ _ _

theorem takeWhile_lt_key (key : Int) (l : List (Nat × Int)) :
    ∀ a ∈ vals (l.takeWhile (keyLtB key)), a < key := by
  intro a ha
  rcases List.mem_map.1 ha with ⟨⟨i, d⟩, hm, rfl⟩
  have := List.mem_takeWhile_imp hm
  simpa [keyLtB] using this

theorem dropWhile_gt_key (key : Int) :
    ∀ (l : List (Nat × Int)), (vals l).Pairwise (· < ·) →
    key ∉ vals l → ∀ b ∈ vals (l.dropWhile (keyLtB key)), key < b := by
  intro l
  induction l with
  | nil => intro _ _ b hb; cases hb
  | cons p t ih =>
    cases p with
    | mk i d =>
      intro hsor hnm b hb
      have hpc := List.pairwise_cons.1 hsor
      by_cases hd : d < key
      · have hkl : keyLtB key (i, d) = true := by simp [keyLtB, hd]
        rw [List.dropWhile_cons_of_pos hkl] at hb
        exact ih hpc.2 (fun hm => hnm (List.mem_cons_of_mem _ hm)) b hb
      · have hkl : ¬keyLtB key (i, d) = true := by simp [keyLtB, hd]
        rw [List.dropWhile_cons_of_neg hkl] at hb
        have hne : d ≠ key := fun he => hnm (by simp [vals, he])
        have hgt : key < d := lt_of_le_of_ne (not_lt.1 hd) (fun h' => hne h'.symm)
        rcases List.mem_cons.1 hb with rfl | hb'
        · exact hgt
        · exact lt_trans hgt (hpc.1 b hb')

theorem takeWhile_append_dropWhile_pairs (key : Int) (l : List (Nat × Int)) :
    l.takeWhile (keyLtB key) ++ l.dropWhile (keyLtB key) = l :=
  List.takeWhile_append_dropWhile (keyLtB key) l

/-- A `Bool`-level transfer of `contains` along a membership equivalence. -/
theorem contains_congr (v s : List Int) (k : Int) (h : ∀ x, x ∈ v ↔ x ∈ s) :
    v.contains k = s.contains k := by
  by_cases hk : k ∈ v
  · simp [hk, (h k).1 hk]
  · have hk' : k ∉ s := fun hs => hk ((h k).2 hs)
    simp [hk, hk']

/-! ### Heap-update helpers -/

theorem storeLoc_nodes_get (h : OHeap) (loc : Loc) (p : Ptr) (j : Nat)
    (hne : loc ≠ .nodeLoc j) : (storeLoc h loc p).nodes.get? j = h.nodes.get? j := by
  cases loc with
  | headLoc => rfl
  | nodeLoc m =>
    exact setNext_get_ne h.nodes m j p (fun he => hne (by rw [he]))

theorem loadLoc_setNext_ne (h : OHeap) (A : Nat) (p : Ptr) (loc : Loc)
    (hne : loc ≠ .nodeLoc A) :
    loadLoc ⟨h.head, setNext h.nodes A p⟩ loc = loadLoc h loc := by
  cases loc with
  | headLoc => rfl
  | nodeLoc j =>
    show ((setNext h.nodes A p).get? j).map ONode.next = _
    rw [setNext_get_ne h.nodes A j p (fun he => hne (by rw [he]))]
    rfl

/-- Allocating a fresh node does not disturb the chain. -/
theorem Chain_alloc (h : OHeap) (l : List (Nat × Int)) (nd : ONode)
    (hc : Chain h l) : Chain ⟨h.head, h.nodes ++ [nd]⟩ l := by
  refine ⟨hc.1, PSeg_congr h _ Ptr.null l hc.2 ?_⟩
  intro j hj
  exact List.get?_append (PSeg_addr_lt h Ptr.null l hc.2 j hj)

/-- The well-formed-state invariant of the optimistic set: a reachable chain
with strictly ascending keys and duplicate-free addresses. -/
def WF (h : OHeap) (l : List (Nat × Int)) : Prop :=
  Chain h l ∧ (vals l).Pairwise (· < ·) ∧ (addrs l).Nodup

/-- Running `contains` on a well-formed state answers membership and leaves the heap
untouched. -/
theorem oContains_spec (h : OHeap) (key : Int) (l : List (Nat × Int)) (fuel : Nat)
    (hw : WF h l) (hfuel : l.length + 2 ≤ fuel) :
    oContains h key fuel = some ((vals l).contains key, h) := by
  unfold oContains
  rw [oFindE_spec h key l fuel hw.1 hfuel, foundB_eq_contains key l hw.2.1]

/-- Running `insert` on a well-formed state reports `true` iff the key was absent,
splices the key at the sorted boundary, and preserves well-formedness. -/
theorem oInsert_spec (h : OHeap) (key : Int) (l : List (Nat × Int)) (fuel : Nat)
    (hw : WF h l) (hfuel : l.length + 3 ≤ fuel) :
    ∃ h' l', oInsert h key fuel = some (!(vals l).contains key, h') ∧ WF h' l' ∧
      l'.length ≤ l.length + 1 ∧ (∀ x, x ∈ vals l' ↔ x = key ∨ x ∈ vals l) := by
  rcases hw with ⟨hc, hsor, hnd⟩
  have hsplit : l.takeWhile (keyLtB key) ++ l.dropWhile (keyLtB key) = l :=
    takeWhile_append_dropWhile_pairs key l
  have haddrs_eq : addrs (l.takeWhile (keyLtB key)) ++ addrs (l.dropWhile (keyLtB key)) =
      addrs l := by rw [← addrs_append, hsplit]
  have haddrlt : ∀ j ∈ addrs l, j < h.nodes.length :=
    PSeg_addr_lt h Ptr.null l hc.2
  have hsub₁ : addrs (l.takeWhile (keyLtB key)) ⊆ addrs l := by
    intro j hj; rw [← haddrs_eq]; exact List.mem_append.2 (Or.inl hj)
  have hsub₂ : addrs (l.dropWhile (keyLtB key)) ⊆ addrs l := by
    intro j hj; rw [← haddrs_eq]; exact List.mem_append.2 (Or.inr hj)
  have hdisj : ∀ j ∈ addrs (l.takeWhile (keyLtB key)),
      j ∉ addrs (l.dropWhile (keyLtB key)) := by
    intro j hj
    exact List.disjoint_of_nodup_append (haddrs_eq ▸ hnd) hj
  have hca : Chain ⟨h.head, h.nodes ++ [⟨key, Ptr.null⟩]⟩ l := Chain_alloc h l _ hc
  match fuel, hfuel with
  | f + 1, hfuel =>
    have hf : l.length + 2 ≤ f := by omega
    have hfind := oFindE_spec ⟨h.head, h.nodes ++ [⟨key, Ptr.null⟩]⟩ key l f hca hf
    have hcontains := foundB_eq_contains key l hsor
    have hoi : oInsert h key (f + 1) =
        oInsertLoop key h.nodes.length (f + 1) ⟨h.head, h.nodes ++ [⟨key, Ptr.null⟩]⟩ := rfl
    by_cases hfound : foundB key (l.dropWhile (keyLtB key)) = true
    · -- key already present: one find pass, report false, chain untouched
      refine ⟨⟨h.head, h.nodes ++ [⟨key, Ptr.null⟩]⟩, l, ?_, ⟨hca, hsor, hnd⟩, by omega, ?_⟩
      · rw [hoi]
        unfold oInsertLoop
        rw [hfind, hfound, ← hcontains, hfound]
        rfl
      · intro x
        have hkey : key ∈ vals l := by
          have := hfound
          rw [hcontains] at this
          simpa using this
        constructor
        · exact Or.inr
        · rintro (rfl | hx)
          · exact hkey
          · exact hx
    · -- key absent: one find pass, splice at the boundary, report true
      have hfoundf : foundB key (l.dropWhile (keyLtB key)) = false :=
        Bool.not_eq_true _ ▸ Bool.eq_false_iff.2 hfound
      have hkey : key ∉ vals l := by
        intro hm
        apply hfound
        rw [hcontains]
        simpa using hm
      -- the boundary cursor
      have hexitload : loadLoc ⟨h.head, h.nodes ++ [⟨key, Ptr.null⟩]⟩
          (exitLoc .headLoc (l.takeWhile (keyLtB key))) =
          some (segHead (l.dropWhile (keyLtB key)) Ptr.null) :=
        (cursorFind_spec ⟨h.head, h.nodes ++ [⟨key, Ptr.null⟩]⟩ key l (l.length + 1) hca
          (le_refl _)).2
      have hexitne : exitLoc .headLoc (l.takeWhile (keyLtB key)) ≠
          .nodeLoc h.nodes.length := by
        rcases exitLoc_cases .headLoc (l.takeWhile (keyLtB key)) with hcase | ⟨j, hj, hcase⟩
        · rw [hcase]; intro hfalse; cases hfalse
        · rw [hcase]
          intro hfalse
          cases hfalse
          exact absurd (haddrlt _ (hsub₁ hj)) (lt_irrefl _)
      have hloadb : loadLoc ⟨h.head,
          setNext (h.nodes ++ [⟨key, Ptr.null⟩]) h.nodes.length
            (segHead (l.dropWhile (keyLtB key)) Ptr.null)⟩
          (exitLoc .headLoc (l.takeWhile (keyLtB key))) =
          some (segHead (l.dropWhile (keyLtB key)) Ptr.null) :=
        (loadLoc_setNext_ne ⟨h.head, h.nodes ++ [⟨key, Ptr.null⟩]⟩ h.nodes.length
          (segHead (l.dropWhile (keyLtB key)) Ptr.null)
          (exitLoc .headLoc (l.takeWhile (keyLtB key))) hexitne).trans hexitload
      refine ⟨storeLoc ⟨h.head, setNext (h.nodes ++ [⟨key, Ptr.null⟩]) h.nodes.length
          (segHead (l.dropWhile (keyLtB key)) Ptr.null)⟩
          (exitLoc .headLoc (l.takeWhile (keyLtB key))) ⟨some h.nodes.length, false⟩,
        l.takeWhile (keyLtB key) ++ (h.nodes.length, key) ::
        l.dropWhile (keyLtB key), ?_, ?_, ?_, ?_⟩
      · rw [hoi]
        unfold oInsertLoop
        rw [hfind, hfoundf, ← hcontains, hfoundf]
        dsimp only
        rw [hloadb]
        dsimp only
        rw [if_pos rfl, if_neg (by simp)]
        rfl
      · -- well-formedness of the spliced chain
        have hseg_split : PSeg h (segHead (l.dropWhile (keyLtB key)) Ptr.null)
            (l.takeWhile (keyLtB key)) ∧ PSeg h Ptr.null (l.dropWhile (keyLtB key)) := by
          have hps := hc.2
          rw [← hsplit] at hps
          exact (PSeg_append h Ptr.null _ _).1 hps
        have hgb : ∀ j ∈ addrs l,
            (⟨h.head, setNext (h.nodes ++ [⟨key, Ptr.null⟩]) h.nodes.length
              (segHead (l.dropWhile (keyLtB key)) Ptr.null)⟩ : OHeap).nodes.get? j =
            h.nodes.get? j := by
          intro j hj
          have hjlt : j < h.nodes.length := haddrlt j hj
          show (setNext (h.nodes ++ [⟨key, Ptr.null⟩]) h.nodes.length
            (segHead (l.dropWhile (keyLtB key)) Ptr.null)).get? j = _
          rw [setNext_get_ne _ _ _ _ (Nat.ne_of_lt hjlt), List.get?_append hjlt]
        have hg2 : ∀ j ∈ addrs (l.dropWhile (keyLtB key)),
            (storeLoc ⟨h.head, setNext (h.nodes ++ [⟨key, Ptr.null⟩]) h.nodes.length
              (segHead (l.dropWhile (keyLtB key)) Ptr.null)⟩
              (exitLoc .headLoc (l.takeWhile (keyLtB key)))
              ⟨some h.nodes.length, false⟩).nodes.get? j = h.nodes.get? j := by
          intro j hj
          have hexitnej : exitLoc .headLoc (l.takeWhile (keyLtB key)) ≠ .nodeLoc j := by
            rcases exitLoc_cases .headLoc (l.takeWhile (keyLtB key)) with hcase | ⟨j₀, hj₀, hcase⟩
            · rw [hcase]; intro hfalse; cases hfalse
            · rw [hcase]
              intro hfalse
              injection hfalse with hjj
              exact hdisj j₀ hj₀ (by rw [hjj]; exact hj)
          rw [storeLoc_nodes_get _ _ _ _ hexitnej]
          exact hgb j (hsub₂ hj)
        have hgA : (storeLoc ⟨h.head, setNext (h.nodes ++ [⟨key, Ptr.null⟩]) h.nodes.length
              (segHead (l.dropWhile (keyLtB key)) Ptr.null)⟩
              (exitLoc .headLoc (l.takeWhile (keyLtB key)))
              ⟨some h.nodes.length, false⟩).nodes.get? h.nodes.length =
            some ⟨key, segHead (l.dropWhile (keyLtB key)) Ptr.null⟩ := by
          rw [storeLoc_nodes_get _ _ _ _ hexitne]
          exact setNext_get_eq _ _ _ _ (List.get?_concat_length h.nodes ⟨key, Ptr.null⟩)
        have hpseg₂ : PSeg (storeLoc ⟨h.head,
              setNext (h.nodes ++ [⟨key, Ptr.null⟩]) h.nodes.length
              (segHead (l.dropWhile (keyLtB key)) Ptr.null)⟩
              (exitLoc .headLoc (l.takeWhile (keyLtB key)))
              ⟨some h.nodes.length, false⟩) Ptr.null (l.dropWhile (keyLtB key)) :=
          PSeg_congr h _ Ptr.null _ hseg_split.2 hg2
        have hpseg_cons : PSeg (storeLoc ⟨h.head,
              setNext (h.nodes ++ [⟨key, Ptr.null⟩]) h.nodes.length
              (segHead (l.dropWhile (keyLtB key)) Ptr.null)⟩
              (exitLoc .headLoc (l.takeWhile (keyLtB key)))
              ⟨some h.nodes.length, false⟩) Ptr.null
            ((h.nodes.length, key) :: l.dropWhile (keyLtB key)) :=
          ⟨hgA, hpseg₂⟩
        have hnd₁ : (addrs (l.takeWhile (keyLtB key))).Nodup :=
          List.Nodup.sublist (List.Sublist.map _ (List.takeWhile_sublist _)) hnd
        have hpseg₁ : PSeg (storeLoc ⟨h.head,
              setNext (h.nodes ++ [⟨key, Ptr.null⟩]) h.nodes.length
              (segHead (l.dropWhile (keyLtB key)) Ptr.null)⟩
              (exitLoc .headLoc (l.takeWhile (keyLtB key)))
              ⟨some h.nodes.length, false⟩)
            (segHead ((h.nodes.length, key) :: l.dropWhile (keyLtB key)) Ptr.null)
            (l.takeWhile (keyLtB key)) := by
          by_cases hl₁ : l.takeWhile (keyLtB key) = []
          · rw [hl₁]; trivial
          · have hpb : PSeg (⟨h.head, setNext (h.nodes ++ [⟨key, Ptr.null⟩]) h.nodes.length
                (segHead (l.dropWhile (keyLtB key)) Ptr.null)⟩ : OHeap)
                (segHead (l.dropWhile (keyLtB key)) Ptr.null) (l.takeWhile (keyLtB key)) :=
              PSeg_congr h _ _ _ hseg_split.1 (fun j hj => hgb j (hsub₁ hj))
            exact PSeg_store_last _ _ _ _ .headLoc hpb hnd₁ hl₁
        have hhead' : (storeLoc ⟨h.head,
              setNext (h.nodes ++ [⟨key, Ptr.null⟩]) h.nodes.length
              (segHead (l.dropWhile (keyLtB key)) Ptr.null)⟩
              (exitLoc .headLoc (l.takeWhile (keyLtB key)))
              ⟨some h.nodes.length, false⟩).head =
            segHead (l.takeWhile (keyLtB key) ++ (h.nodes.length, key) ::
              l.dropWhile (keyLtB key)) Ptr.null := by
          by_cases hl₁ : l.takeWhile (keyLtB key) = []
          · rw [hl₁]; rfl
          · rcases exitLoc_of_ne .headLoc (l.takeWhile (keyLtB key)) hl₁ with ⟨j, _, hexiteq⟩
            rw [hexiteq]
            show h.head = _
            rw [hc.1]
            conv_lhs => rw [← hsplit]
            rw [segHead_append, segHead_append]
            exact segHead_of_ne _ _ _ hl₁
        refine ⟨⟨hhead', (PSeg_append _ Ptr.null _ _).2 ⟨hpseg₁, hpseg_cons⟩⟩, ?_, ?_⟩
        · -- strict sortedness of the new key sequence
          have hvals' : vals (l.takeWhile (keyLtB key) ++ (h.nodes.length, key) ::
              l.dropWhile (keyLtB key)) =
              vals (l.takeWhile (keyLtB key)) ++ key :: vals (l.dropWhile (keyLtB key)) := by
            rw [vals_append]; rfl
          have hsub₁v : (vals (l.takeWhile (keyLtB key))).Sublist (vals l) :=
            List.Sublist.map _ (List.takeWhile_sublist _)
          have hsub₂v : (vals (l.dropWhile (keyLtB key))).Sublist (vals l) :=
            List.Sublist.map _ (List.dropWhile_sublist _)
          rw [hvals', List.pairwise_append]
          refine ⟨List.Pairwise.sublist hsub₁v hsor, ?_, ?_⟩
          · exact List.pairwise_cons.2
              ⟨dropWhile_gt_key key l hsor hkey, List.Pairwise.sublist hsub₂v hsor⟩
          · intro a ha b hb
            have halt : a < key := takeWhile_lt_key key l a ha
            rcases List.mem_cons.1 hb with rfl | hb'
            · exact halt
            · exact lt_trans halt (dropWhile_gt_key key l hsor hkey b hb')
        · -- address freshness
          have haddrs' : addrs (l.takeWhile (keyLtB key) ++ (h.nodes.length, key) ::
              l.dropWhile (keyLtB key)) =
              addrs (l.takeWhile (keyLtB key)) ++ h.nodes.length ::
                addrs (l.dropWhile (keyLtB key)) := by
            rw [addrs_append]; rfl
          rw [haddrs', List.nodup_middle]
          refine List.nodup_cons.2 ⟨?_, haddrs_eq ▸ hnd⟩
          intro hmem
          exact absurd (haddrlt _ (haddrs_eq ▸ hmem)) (lt_irrefl _)
      · have : l.length = (l.takeWhile (keyLtB key)).length +
            (l.dropWhile (keyLtB key)).length := by
          conv_lhs => rw [← hsplit]
          exact List.length_append _ _
        simp [List.length_append, this]
        omega
      · intro x
        have hv : vals (l.takeWhile (keyLtB key) ++ (h.nodes.length, key) ::
            l.dropWhile (keyLtB key)) =
            vals (l.takeWhile (keyLtB key)) ++ key :: vals (l.dropWhile (keyLtB key)) := by
          rw [vals_append]; rfl
        have hvl : vals (l.takeWhile (keyLtB key)) ++ vals (l.dropWhile (keyLtB key)) =
            vals l := by rw [← vals_append, hsplit]
        rw [hv, ← hvl]
        simp only [List.mem_append, List.mem_cons]
        tauto

/-- Running `remove` on a well-formed state reports `true` iff the key was present,
marks and unlinks the carrying node in one pass, and preserves
well-formedness. -/
theorem oRemove_spec (h : OHeap) (key : Int) (l : List (Nat × Int)) (fuel : Nat)
    (hw : WF h l) (hfuel : l.length + 3 ≤ fuel) :
    ∃ h' l', oRemoveLoop key fuel h = some ((vals l).contains key, h') ∧ WF h' l' ∧
      l'.length ≤ l.length ∧ (∀ x, x ∈ vals l' ↔ x ∈ vals l ∧ x ≠ key) := by
  rcases hw with ⟨hc, hsor, hnd⟩
  have hsplit : l.takeWhile (keyLtB key) ++ l.dropWhile (keyLtB key) = l :=
    takeWhile_append_dropWhile_pairs key l
  have haddrlt : ∀ j ∈ addrs l, j < h.nodes.length :=
    PSeg_addr_lt h Ptr.null l hc.2
  match fuel, hfuel with
  | f + 1, hfuel =>
    have hf : l.length + 2 ≤ f := by omega
    have hfind := oFindE_spec h key l f hc hf
    have hcontains := foundB_eq_contains key l hsor
    have hexitload := (cursorFind_spec h key l (l.length + 1) hc (le_refl _)).2
    by_cases hfound : foundB key (l.dropWhile (keyLtB key)) = true
    · -- key present: mark the carrying node, unlink it, report true
      have hcf : (vals l).contains key = true := by rw [← hcontains]; exact hfound
      rcases hdw : l.dropWhile (keyLtB key) with _ | ⟨⟨j, d⟩, t₂⟩
      · rw [hdw] at hfound; cases hfound
      · have hd : d = key := by
          rw [hdw] at hfound
          simpa [foundB] using hfound
        subst hd
        rw [hdw] at hfind hexitload
        rw [show foundB d ((j, d) :: t₂) = true from by simp [foundB]] at hfind
        have hsplit' : l.takeWhile (keyLtB d) ++ (j, d) :: t₂ = l := by
          rw [← hdw]; exact hsplit
        -- decompositions of the old chain
        have hseg_split : PSeg h (segHead ((j, d) :: t₂) Ptr.null)
            (l.takeWhile (keyLtB d)) ∧ PSeg h Ptr.null ((j, d) :: t₂) := by
          have hps := hc.2
          rw [← hsplit'] at hps
          exact (PSeg_append h Ptr.null _ _).1 hps
        have hgetj : h.nodes.get? j = some ⟨d, segHead t₂ Ptr.null⟩ := hseg_split.2.1
        have hsegt₂ : PSeg h Ptr.null t₂ := hseg_split.2.2
        -- address bookkeeping
        have haddrs_eq : addrs (l.takeWhile (keyLtB d)) ++ addrs ((j, d) :: t₂) =
            addrs l := by
          rw [← addrs_append, hsplit']
        have hnd' : (j :: (addrs (l.takeWhile (keyLtB d)) ++ addrs t₂)).Nodup := by
          rw [← List.nodup_middle]
          show (addrs (l.takeWhile (keyLtB d)) ++ addrs ((j, d) :: t₂)).Nodup
          rw [haddrs_eq]
          exact hnd
        have hjl₁ : j ∉ addrs (l.takeWhile (keyLtB d)) := fun hm =>
          (List.nodup_cons.1 hnd').1 (List.mem_append.2 (Or.inl hm))
        have hjt₂ : j ∉ addrs t₂ := fun hm =>
          (List.nodup_cons.1 hnd').1 (List.mem_append.2 (Or.inr hm))
        have hdisj : ∀ m ∈ addrs (l.takeWhile (keyLtB d)), m ∉ addrs t₂ := by
          intro m hm
          exact List.disjoint_of_nodup_append (List.nodup_cons.1 hnd').2 hm
        have hexitnej : exitLoc .headLoc (l.takeWhile (keyLtB d)) ≠ .nodeLoc j := by
          rcases exitLoc_cases .headLoc (l.takeWhile (keyLtB d)) with hcase | ⟨m, hm, hcase⟩
          · rw [hcase]; intro hfalse; cases hfalse
          · rw [hcase]
            intro hfalse
            injection hfalse with hmj
            exact hjl₁ (hmj ▸ hm)
        -- the marked heap, and the load the unlink CAS observes
        have hload1 : loadLoc ⟨h.head, setNext h.nodes j
            ⟨(segHead t₂ Ptr.null).addr, true⟩⟩
            (exitLoc .headLoc (l.takeWhile (keyLtB d))) =
            some (segHead ((j, d) :: t₂) Ptr.null) :=
          (loadLoc_setNext_ne h j ⟨(segHead t₂ Ptr.null).addr, true⟩ _ hexitnej).trans
            hexitload
        refine ⟨storeLoc ⟨h.head, setNext h.nodes j ⟨(segHead t₂ Ptr.null).addr, true⟩⟩
            (exitLoc .headLoc (l.takeWhile (keyLtB d))) (segHead t₂ Ptr.null),
          l.takeWhile (keyLtB d) ++ t₂, ?_, ?_, ?_, ?_⟩
        · -- the run of the loop body
          unfold oRemoveLoop
          rw [hfind]
          dsimp only [segHead]
          unfold removePhys
          dsimp only
          rw [hgetj]
          dsimp only
          rw [segHead_tag t₂]
          rw [if_pos rfl]
          rw [if_neg (by simp)]
          rw [hload1]
          dsimp only
          rw [if_pos (show segHead ((j, d) :: t₂) Ptr.null = ⟨some j, false⟩ from rfl)]
          dsimp only
          rw [hcf]
          rfl
        · -- well-formedness of the shortened chain
          have hg1 : ∀ m, m ≠ j →
              ((⟨h.head, setNext h.nodes j ⟨(segHead t₂ Ptr.null).addr, true⟩⟩ :
                OHeap)).nodes.get? m = h.nodes.get? m := by
            intro m hm
            exact setNext_get_ne h.nodes j m _ hm
          have hg2 : ∀ m ∈ addrs t₂,
              (storeLoc ⟨h.head, setNext h.nodes j ⟨(segHead t₂ Ptr.null).addr, true⟩⟩
                (exitLoc .headLoc (l.takeWhile (keyLtB d)))
                (segHead t₂ Ptr.null)).nodes.get? m = h.nodes.get? m := by
            intro m hm
            have hexitnem : exitLoc .headLoc (l.takeWhile (keyLtB d)) ≠ .nodeLoc m := by
              rcases exitLoc_cases .headLoc (l.takeWhile (keyLtB d)) with hcase | ⟨m₀, hm₀, hcase⟩
              · rw [hcase]; intro hfalse; cases hfalse
              · rw [hcase]
                intro hfalse
                injection hfalse with hmm
                exact hdisj m₀ hm₀ (hmm ▸ hm)
            rw [storeLoc_nodes_get _ _ _ _ hexitnem]
            exact hg1 m (fun he => hjt₂ (he ▸ hm))
          have hpseg₂ : PSeg (storeLoc ⟨h.head,
                setNext h.nodes j ⟨(segHead t₂ Ptr.null).addr, true⟩⟩
                (exitLoc .headLoc (l.takeWhile (keyLtB d)))
                (segHead t₂ Ptr.null)) Ptr.null t₂ :=
            PSeg_congr h _ Ptr.null t₂ hsegt₂ hg2
          have hnd₁ : (addrs (l.takeWhile (keyLtB d))).Nodup :=
            List.Nodup.sublist (List.Sublist.map _ (List.takeWhile_sublist _)) hnd
          have hpseg₁ : PSeg (storeLoc ⟨h.head,
                setNext h.nodes j ⟨(segHead t₂ Ptr.null).addr, true⟩⟩
                (exitLoc .headLoc (l.takeWhile (keyLtB d)))
                (segHead t₂ Ptr.null)) (segHead t₂ Ptr.null)
              (l.takeWhile (keyLtB d)) := by
            by_cases hl₁ : l.takeWhile (keyLtB d) = []
            · rw [hl₁]; trivial
            · have hpb : PSeg (⟨h.head,
                  setNext h.nodes j ⟨(segHead t₂ Ptr.null).addr, true⟩⟩ : OHeap)
                  (segHead ((j, d) :: t₂) Ptr.null) (l.takeWhile (keyLtB d)) :=
                PSeg_congr h _ _ _ hseg_split.1
                  (fun m hm => hg1 m (fun he => hjl₁ (he ▸ hm)))
              exact PSeg_store_last _ _ _ _ .headLoc hpb hnd₁ hl₁
          have hhead' : (storeLoc ⟨h.head,
                setNext h.nodes j ⟨(segHead t₂ Ptr.null).addr, true⟩⟩
                (exitLoc .headLoc (l.takeWhile (keyLtB d)))
                (segHead t₂ Ptr.null)).head =
              segHead (l.takeWhile (keyLtB d) ++ t₂) Ptr.null := by
            by_cases hl₁ : l.takeWhile (keyLtB d) = []
            · rw [hl₁]; rfl
            · rcases exitLoc_of_ne .headLoc (l.takeWhile (keyLtB d)) hl₁ with ⟨m, _, hexiteq⟩
              rw [hexiteq]
              show h.head = _
              rw [hc.1]
              conv_lhs => rw [← hsplit']
              rw [segHead_append, segHead_append]
              exact segHead_of_ne _ _ _ hl₁
          refine ⟨⟨hhead', (PSeg_append _ Ptr.null _ _).2 ⟨hpseg₁, hpseg₂⟩⟩, ?_, ?_⟩
          · have hsubv : (vals (l.takeWhile (keyLtB d) ++ t₂)).Sublist (vals l) := by
              conv_rhs => rw [← hsplit']
              rw [vals_append, vals_append]
              refine List.Sublist.append_left ?_ _
              show (vals t₂).Sublist (vals ((j, d) :: t₂))
              exact List.Sublist.map _ (List.sublist_cons_self _ _)
            exact List.Pairwise.sublist hsubv hsor
          · have hsuba : (addrs (l.takeWhile (keyLtB d) ++ t₂)).Sublist (addrs l) := by
              conv_rhs => rw [← hsplit']
              rw [addrs_append, addrs_append]
              refine List.Sublist.append_left ?_ _
              show (addrs t₂).Sublist (addrs ((j, d) :: t₂))
              exact List.Sublist.map _ (List.sublist_cons_self _ _)
            exact List.Nodup.sublist hsuba hnd
        · -- the chain shrinks by one node
          have hlen : l.length = (l.takeWhile (keyLtB d)).length + (t₂.length + 1) := by
            conv_lhs => rw [← hsplit']
            simp [List.length_append]
          simp [List.length_append]
          omega
        · -- membership: exactly the key disappears
          intro x
          have hvl : vals l = vals (l.takeWhile (keyLtB d)) ++ d :: vals t₂ := by
            conv_lhs => rw [← hsplit']
            rw [vals_append]; rfl
          have hvl' : vals (l.takeWhile (keyLtB d) ++ t₂) =
              vals (l.takeWhile (keyLtB d)) ++ vals t₂ := vals_append _ _
          have hx₁ : ∀ a ∈ vals (l.takeWhile (keyLtB d)), a ≠ d := fun a ha he =>
            absurd (takeWhile_lt_key d l a ha) (he ▸ lt_irrefl d)
          have hx₂ : ∀ b ∈ vals t₂, b ≠ d := by
            intro b hb
            have hpw := hsor
            rw [hvl, List.pairwise_append] at hpw
            have := (List.pairwise_cons.1 hpw.2.1).1 b hb
            exact fun he => absurd (he ▸ this) (lt_irrefl d)
          rw [hvl, hvl']
          simp only [List.mem_append, List.mem_cons]
          constructor
          · rintro (hx | hx)
            · exact ⟨Or.inl hx, hx₁ x hx⟩
            · exact ⟨Or.inr (Or.inr hx), hx₂ x hx⟩
          · rintro ⟨(hx | hx | hx), hne⟩
            · exact Or.inl hx
            · exact absurd hx hne
            · exact Or.inr hx
    · -- key absent: one find pass, report false, heap untouched
      have hcf : (vals l).contains key = false := by
        rw [← hcontains]
        exact Bool.not_eq_true _ ▸ Bool.eq_false_iff.2 hfound
      have hkey : key ∉ vals l := by
        intro hm
        rw [show ((vals l).contains key) = true by simpa using hm] at hcf
        cases hcf
      have hfoundf : foundB key (l.dropWhile (keyLtB key)) = false :=
        Bool.not_eq_true _ ▸ Bool.eq_false_iff.2 hfound
      refine ⟨h, l, ?_, ⟨hc, hsor, hnd⟩, le_refl _, ?_⟩
      · unfold oRemoveLoop
        rw [hfind, hfoundf, hcf]
        rfl
      · intro x
        exact ⟨fun hx => ⟨hx, fun he => hkey (he ▸ hx)⟩, fun hx => hx.1⟩

/-! ### Step- and run-level equivalence with the reference model -/

/-- One fine-grained step agrees with the reference model and preserves
sortedness, assuming the states agree on membership. -/
theorem fgStep_sim (lf s : List Int) (op : Op)
    (hsor : lf.Pairwise (· < ·)) (hrel : ∀ x, x ∈ lf ↔ x ∈ s) :
    (fgStep lf op).1 = (refStep s op).1 ∧
    (fgStep lf op).2.Pairwise (· < ·) ∧
    (∀ x, x ∈ (fgStep lf op).2 ↔ x ∈ (refStep s op).2) := by
  have hcc : ∀ k, fgContains lf k = s.contains k := fun k => by
    rw [fgContains_eq]; exact contains_congr lf s k hrel
  cases op with
  | containsOp k => exact ⟨hcc k, hsor, hrel⟩
  | insertOp k =>
    by_cases hk : k ∈ lf
    · have h1 : fgContains lf k = true := (fgContains_iff lf k).2 hk
      have h2 : s.contains k = true := by simpa using (hrel k).1 hk
      have e1 : fgInsert lf k = (false, lf) := by unfold fgInsert; rw [h1]; rfl
      have e2 : refStep s (.insertOp k) = (false, s) := by
        show (if s.contains k = true then (false, s) else (true, k :: s)) = (false, s)
        rw [h2]
        rfl
      show (fgInsert lf k).1 = (refStep s (.insertOp k)).1 ∧
        (fgInsert lf k).2.Pairwise (· < ·) ∧
        ∀ x, x ∈ (fgInsert lf k).2 ↔ x ∈ (refStep s (.insertOp k)).2
      rw [e1, e2]
      exact ⟨rfl, hsor, hrel⟩
    · have hks : k ∉ s := fun hs => hk ((hrel k).2 hs)
      have h1 : fgContains lf k = false := by rw [fgContains_eq]; simp [hk]
      have h2 : s.contains k = false := by simp [hks]
      have e1 : fgInsert lf k = (true, fgInsertWalk lf k) := by
        unfold fgInsert; rw [h1]; rfl
      have e2 : refStep s (.insertOp k) = (true, k :: s) := by
        show (if s.contains k = true then (false, s) else (true, k :: s)) = (true, k :: s)
        rw [h2]
        rfl
      show (fgInsert lf k).1 = (refStep s (.insertOp k)).1 ∧
        (fgInsert lf k).2.Pairwise (· < ·) ∧
        ∀ x, x ∈ (fgInsert lf k).2 ↔ x ∈ (refStep s (.insertOp k)).2
      rw [e1, e2]
      refine ⟨rfl, sorted_fgInsertWalk k lf hsor hk, ?_⟩
      intro x
      rw [mem_fgInsertWalk, List.mem_cons, hrel x]
  | removeOp k =>
    by_cases hk : k ∈ lf
    · have hnd := nodup_of_sorted lf hsor
      have h1 : fgContains lf k = true := (fgContains_iff lf k).2 hk
      have h2 : s.contains k = true := by simpa using (hrel k).1 hk
      have hw := fgRemoveWalk_eq k lf hk hnd
      have e1 : fgRemove lf k = (true, lf.filter (· ≠ k)) := by
        unfold fgRemove; rw [h1, hw]; rfl
      show (fgRemove lf k).1 = (refStep s (.removeOp k)).1 ∧
        (fgRemove lf k).2.Pairwise (· < ·) ∧
        ∀ x, x ∈ (fgRemove lf k).2 ↔ x ∈ (refStep s (.removeOp k)).2
      rw [e1]
      refine ⟨h2.symm, sorted_filter k lf hsor, ?_⟩
      intro x
      show x ∈ lf.filter (· ≠ k) ↔ x ∈ s.filter (· ≠ k)
      rw [mem_filter_ne, mem_filter_ne, hrel x]
    · have hks : k ∉ s := fun hs => hk ((hrel k).2 hs)
      have h1 : fgContains lf k = false := by rw [fgContains_eq]; simp [hk]
      have h2 : s.contains k = false := by simp [hks]
      have e1 : fgRemove lf k = (false, lf) := by unfold fgRemove; rw [h1]; rfl
      show (fgRemove lf k).1 = (refStep s (.removeOp k)).1 ∧
        (fgRemove lf k).2.Pairwise (· < ·) ∧
        ∀ x, x ∈ (fgRemove lf k).2 ↔ x ∈ (refStep s (.removeOp k)).2
      rw [e1]
      refine ⟨h2.symm, hsor, ?_⟩
      intro x
      show x ∈ lf ↔ x ∈ s.filter (· ≠ k)
      rw [mem_filter_ne, ← hrel x]
      exact ⟨fun hx => ⟨hx, fun he => hk (he ▸ hx)⟩, fun hx => hx.1⟩

/-- Replaying any operation sequence: the fine-grained set returns the
reference model's booleans at every step, with a sorted final chain. -/
theorem fgRun_sim : ∀ (ops : List Op) (lf s : List Int),
    lf.Pairwise (· < ·) → (∀ x, x ∈ lf ↔ x ∈ s) →
    (fgRun lf ops).1 = refRun s ops ∧ (fgRun lf ops).2.Pairwise (· < ·) := by
  intro ops
  induction ops with
  | nil => intro lf s hsor _; exact ⟨rfl, hsor⟩
  | cons op ops ih =>
    intro lf s hsor hrel
    have hstep := fgStep_sim lf s op hsor hrel
    have hrec := ih (fgStep lf op).2 (refStep s op).2 hstep.2.1 hstep.2.2
    refine ⟨?_, hrec.2⟩
    show (fgStep lf op).1 :: (fgRun (fgStep lf op).2 ops).1 = refRun s (op :: ops)
    rw [hstep.1, hrec.1]
    rfl

/-- Replaying any operation sequence: the optimistic set returns the
reference model's booleans at every step, with a well-formed final heap. -/
theorem oRun_sim : ∀ (ops : List Op) (h : OHeap) (l : List (Nat × Int))
    (s : List Int) (F : Nat),
    WF h l → (∀ x, x ∈ vals l ↔ x ∈ s) → l.length + ops.length + 3 ≤ F →
    ∃ h' l', oRun F ops h = some (refRun s ops, h') ∧ WF h' l' ∧
      l'.length ≤ l.length + ops.length := by
  intro ops
  induction ops with
  | nil =>
    intro h l s F hw hrel hF
    exact ⟨h, l, rfl, hw, by simp⟩
  | cons op ops ih =>
    intro h l s F hw hrel hF
    rw [List.length_cons] at hF
    cases op with
    | containsOp k =>
      have hstep := oContains_spec h k l F hw (by omega)
      have hbool : (vals l).contains k = s.contains k := contains_congr _ _ _ hrel
      rcases ih h l s F hw hrel (by omega) with ⟨h', l', hrun, hw', hlen⟩
      refine ⟨h', l', ?_, hw', by rw [List.length_cons]; omega⟩
      unfold oRun
      rw [show oStep h F (.containsOp k) = oContains h k F from rfl, hstep]
      show Option.map (fun r => ((vals l).contains k :: r.1, r.2)) (oRun F ops h) =
        some (refRun s (.containsOp k :: ops), h')
      rw [hrun, hbool]
      rfl
    | insertOp k =>
      rcases oInsert_spec h k l F hw (by omega) with ⟨h1, l1, hstep, hw1, hlen1, hmem1⟩
      by_cases hks : k ∈ s
      · have h2 : s.contains k = true := by simpa using hks
        have e2 : refStep s (.insertOp k) = (false, s) := by
          show (if s.contains k = true then (false, s) else (true, k :: s)) = (false, s)
          rw [h2]
          rfl
        have hbool : (!(vals l).contains k) = false := by
          rw [contains_congr _ _ _ hrel, h2]; rfl
        have hrel1 : ∀ x, x ∈ vals l1 ↔ x ∈ s := by
          intro x
          rw [hmem1 x]
          exact ⟨fun hx => hx.elim (fun he => he ▸ hks) (fun hx' => (hrel x).1 hx'),
            fun hx => Or.inr ((hrel x).2 hx)⟩
        rcases ih h1 l1 s F hw1 hrel1 (by omega) with ⟨h', l', hrun, hw', hlen⟩
        refine ⟨h', l', ?_, hw', by rw [List.length_cons]; omega⟩
        unfold oRun
        rw [show oStep h F (.insertOp k) = oInsert h k F from rfl, hstep]
        show Option.map (fun r => ((!(vals l).contains k) :: r.1, r.2)) (oRun F ops h1) =
          some (refRun s (.insertOp k :: ops), h')
        rw [hrun, hbool]
        show some (false :: refRun s ops, h') =
          some ((refStep s (.insertOp k)).1 :: refRun (refStep s (.insertOp k)).2 ops, h')
        rw [e2]
      · have hks' : k ∉ s := hks
        have h2 : s.contains k = false := by simp [hks']
        have e2 : refStep s (.insertOp k) = (true, k :: s) := by
          show (if s.contains k = true then (false, s) else (true, k :: s)) = (true, k :: s)
          rw [h2]
          rfl
        have hbool : (!(vals l).contains k) = true := by
          rw [contains_congr _ _ _ hrel, h2]; rfl
        have hrel1 : ∀ x, x ∈ vals l1 ↔ x ∈ k :: s := by
          intro x
          rw [hmem1 x, List.mem_cons]
          exact ⟨fun hx => hx.elim Or.inl (fun hx' => Or.inr ((hrel x).1 hx')),
            fun hx => hx.elim Or.inl (fun hx' => Or.inr ((hrel x).2 hx'))⟩
        rcases ih h1 l1 (k :: s) F hw1 hrel1 (by omega) with ⟨h', l', hrun, hw', hlen⟩
        refine ⟨h', l', ?_, hw', by rw [List.length_cons]; omega⟩
        unfold oRun
        rw [show oStep h F (.insertOp k) = oInsert h k F from rfl, hstep]
        show Option.map (fun r => ((!(vals l).contains k) :: r.1, r.2)) (oRun F ops h1) =
          some (refRun s (.insertOp k :: ops), h')
        rw [hrun, hbool]
        show some (true :: refRun (k :: s) ops, h') =
          some ((refStep s (.insertOp k)).1 :: refRun (refStep s (.insertOp k)).2 ops, h')
        rw [e2]
    | removeOp k =>
      rcases oRemove_spec h k l F hw (by omega) with ⟨h1, l1, hstep, hw1, hlen1, hmem1⟩
      have hbool : (vals l).contains k = s.contains k := contains_congr _ _ _ hrel
      have hrel1 : ∀ x, x ∈ vals l1 ↔ x ∈ s.filter (· ≠ k) := by
        intro x
        rw [hmem1 x, mem_filter_ne, hrel x]
      rcases ih h1 l1 (s.filter (· ≠ k)) F hw1 hrel1 (by omega) with ⟨h', l', hrun, hw', hlen⟩
      refine ⟨h', l', ?_, hw', by rw [List.length_cons]; omega⟩
      unfold oRun
      rw [show oStep h F (.removeOp k) = oRemoveLoop k F h from rfl, hstep]
      show Option.map (fun r => ((vals l).contains k :: r.1, r.2)) (oRun F ops h1) =
        some (refRun s (.removeOp k :: ops), h')
      rw [hrun, hbool]
      rfl

/-! ### Iteration over a quiescent well-formed heap -/

/-- The fine-grained iterator yields the chain itself. -/
theorem fgIterColl_id : ∀ (l : List Int), fgIterColl l = l := by
  intro l
  induction l with
  | nil => rfl
  | cons x xs ih => show x :: fgIterColl xs = x :: xs; rw [ih]

/-- On a quiescent heap, repeatedly calling the optimistic iterator's `next`
from a cursor aimed at a spine yields exactly the spine's keys, each wrapped
`Ok`, and then end-of-sequence. -/
theorem iterColl_chain (h : OHeap) :
    ∀ (l : List (Nat × Int)) (loc : Loc), PSeg h Ptr.null l →
    loadLoc h loc = some (segHead l Ptr.null) →
    iterColl h (l.length + 1) ⟨loc, segHead l Ptr.null⟩ =
      some ((vals l).map Except.ok) := by
  intro l
  induction l with
  | nil =>
    intro loc _ hload
    show iterColl h 1 ⟨loc, Ptr.null⟩ = some []
    unfold iterColl iterNext
    rw [hload]
    dsimp only
    rw [if_neg (show ¬(Ptr.null ≠ segHead ([] : List (Nat × Int)) Ptr.null) from
      fun hne => hne rfl)]
    rfl
  | cons p t ih =>
    cases p with
    | mk i d =>
      intro loc hs hload
      rcases hs with ⟨hget, ht⟩
      show iterColl h (t.length + 1 + 1) ⟨loc, ⟨some i, false⟩⟩ =
        some (Except.ok d :: (vals t).map Except.ok)
      unfold iterColl iterNext
      rw [hload]
      dsimp only
      rw [if_neg (show ¬((⟨some i, false⟩ : Ptr) ≠ segHead ((i, d) :: t) Ptr.null) from
        fun hne => hne rfl)]
      rw [hget]
      dsimp only
      rw [ih (.nodeLoc i) ht (by
        show (h.nodes.get? i).map ONode.next = some (segHead t Ptr.null)
        rw [hget]
        rfl)]
      rfl

/-- The empty heap is well-formed with the empty chain. -/
theorem WF_empty : WF emptyHeap [] :=
  ⟨⟨rfl, trivial⟩, List.Pairwise.nil, List.Pairwise.nil⟩

/-! ## The claims -/

/-- C1: Sequential equivalence of the capability contract — replaying any
sequence of `contains`/`insert`/`remove` from the empty set against the
fine-grained set, against the optimistic set, and against the reference
finite-set model yields identical boolean results at every step (insert true
iff absent, remove true iff present, contains true iff present). -/
theorem sequential_equivalence (ops : List Op) :
    (fgRun [] ops).1 = refRun [] ops ∧
    ∃ hp, oRun (ops.length + 3) ops emptyHeap = some (refRun [] ops, hp) := by
  have hfg := fgRun_sim ops [] [] List.Pairwise.nil (fun x => Iff.rfl)
  rcases oRun_sim ops emptyHeap [] [] (ops.length + 3) WF_empty (fun x => Iff.rfl)
    (by simp) with ⟨h', _, hrun, _, _⟩
  exact ⟨hfg.1, h', hrun⟩

/-- C7: Sortedness and no-duplicates invariant — after every sequence of
operations from the empty set, the fine-grained chain is strictly ascending,
and the optimistic heap's reachable chain is strictly ascending with
duplicate-free addresses; a full iteration of either set yields exactly those
strictly ascending keys. -/
theorem sortedness_invariant (ops : List Op) :
    (fgRun [] ops).2.Pairwise (· < ·) ∧
    fgIterColl (fgRun [] ops).2 = (fgRun [] ops).2 ∧
    ∃ hp l, oRun (ops.length + 3) ops emptyHeap = some (refRun [] ops, hp) ∧
      Chain hp l ∧ (vals l).Pairwise (· < ·) ∧ (addrs l).Nodup ∧
      iterColl hp (l.length + 1) (headIter hp) = some ((vals l).map Except.ok) := by
  have hfg := fgRun_sim ops [] [] List.Pairwise.nil (fun x => Iff.rfl)
  rcases oRun_sim ops emptyHeap [] [] (ops.length + 3) WF_empty (fun x => Iff.rfl)
    (by simp) with ⟨h', l', hrun, hw', _⟩
  refine ⟨hfg.2, fgIterColl_id _, h', l', hrun, hw'.1, hw'.2.1, hw'.2.2, ?_⟩
  have hcoll := iterColl_chain h' l' .headLoc hw'.1.2
    (by show some h'.head = _; rw [hw'.1.1])
  rw [show headIter h' = ⟨.headLoc, segHead l' Ptr.null⟩ from by
    unfold headIter; rw [hw'.1.1]]
  exact hcoll

/-- C9: Concrete scenario B — from the empty set, `remove 222` is false,
then `insert 184`, `insert 15`, `insert 182` are all true, and full
iteration yields `[15, 182, 184]`, for both implementations. -/
theorem concrete_scenario_B :
    (fgRun [] [.removeOp 222, .insertOp 184, .insertOp 15, .insertOp 182]).1 =
      [false, true, true, true] ∧
    fgIterColl (fgRun [] [.removeOp 222, .insertOp 184, .insertOp 15,
      .insertOp 182]).2 = [15, 182, 184] ∧
    (oRun 10 [.removeOp 222, .insertOp 184, .insertOp 15, .insertOp 182]
      emptyHeap).map Prod.fst = some [false, true, true, true] ∧
    ((oRun 10 [.removeOp 222, .insertOp 184, .insertOp 15, .insertOp 182]
      emptyHeap).bind fun r => iterColl r.2 10 (headIter r.2)) =
      some [Except.ok 15, Except.ok 182, Except.ok 184] :=
  ⟨rfl, rfl, rfl, rfl⟩

/-- C2 (code bug): the fine-grained `insert` is an unlocked `contains` check
followed by a separate locked walk, and the walk inserts unconditionally.
Evaluated on the chain `[5]` — the state a concurrent `insert 5` leaves
behind between the check and the walk — the walk produces the duplicate
chain `[5, 5]`: the check-then-act window the spec forbids is real.  (The
first two conjuncts pin down the two-phase structure on the code itself.) -/
theorem insert_walk_unconditional :
    fgInsert [5] 5 = (if fgContains [5] 5 then (false, [5]) else
      (true, fgInsertWalk [5] 5)) ∧
    fgContains [5] 5 = true ∧
    fgInsertWalk [5] 5 = [5, 5] ∧
    ¬([5, 5] : List Int).Nodup := by
  refine ⟨rfl, rfl, rfl, by decide⟩

/-- C3 (code bug): after the optimistic iterator yields the
validation-failure signal `Some(Err(()))`, its cursor is left unchanged, so
the very next call on the same iterator (with no further interference)
yields `Some(Err(()))` again — not `None` as the claim (and the source's own
doc comment) states.  The state shown arises from an iterator created on an
empty set after a concurrent `insert 7` relinked `head`. -/
theorem iter_validation_failure_repeats :
    iterNext ⟨⟨some 0, false⟩, [⟨7, Ptr.null⟩]⟩ ⟨.headLoc, Ptr.null⟩ =
      some (some (Except.error ()), ⟨.headLoc, Ptr.null⟩) ∧
    ((iterNext ⟨⟨some 0, false⟩, [⟨7, Ptr.null⟩]⟩ ⟨.headLoc, Ptr.null⟩).bind
      fun r => iterNext ⟨⟨some 0, false⟩, [⟨7, Ptr.null⟩]⟩ r.2) =
      some (some (Except.error ()), ⟨.headLoc, Ptr.null⟩) :=
  ⟨rfl, rfl⟩

/-- Characterization of the fine-grained `find`'s traversal: starting the
walk at link `i`, it reports whether the key occurs and stops at the first
node whose key equals the search key — or at the end of the chain. -/
theorem fgFindAux_eq (k : Int) :
    ∀ (l : List Int) (i : Nat),
    fgFindAux k l i = (l.contains k, i + l.findIdx (· == k)) := by
  intro l
  induction l with
  | nil => intro i; rfl
  | cons x xs ih =>
    intro i
    by_cases hx : x = k
    · subst hx
      have hp : ((x == x) : Bool) = true := by simp
      show (if x = x then (true, i) else fgFindAux x xs (i + 1)) = _
      rw [if_pos rfl, List.findIdx_cons, hp]
      have hc : (x :: xs).contains x = true := by simp
      rw [hc]
      rfl
    · have hp : ((x == k) : Bool) = false := by
        simp only [beq_eq_false_iff_ne, ne_eq]
        exact hx
      have hck : (k == x) = false := by
        simp only [beq_eq_false_iff_ne, ne_eq]
        exact fun he => hx he.symm
      show (if x = k then (true, i) else fgFindAux k xs (i + 1)) = _
      rw [if_neg hx, ih (i + 1), List.findIdx_cons, hp]
      show (xs.contains k, i + 1 + xs.findIdx (· == k)) = ((x :: xs).contains k, _)
      rw [List.contains_cons, hck, Bool.false_or]
      have harith : i + 1 + xs.findIdx (· == k) = i + (xs.findIdx (· == k) + 1) := by
        omega
      rw [harith]
      rfl

/-- C4 (counterexample): the claim says `find` stops at the first node whose
key is ≥ the search key and never walks past a greater key.  On the chain
`[5]` with search key `3` the code's `find` walks past the node `5` and
rests its cursor at the end of the chain (link index 1), while the
claim-side `find` stops at the head link (index 0). -/
theorem fgFind_walks_past_greater :
    fgFind [5] 3 = (false, 1) ∧ specFind [5] 3 = (false, 0) ∧
    (fgFind [5] 3).2 ≠ (specFind [5] 3).2 := by
  refine ⟨rfl, rfl, by decide⟩

/-- C4 (amended): `FineGrainedListSet::find` traverses until it reaches a
node whose key *equals* the search key or the end of the chain — possibly
walking past nodes with greater keys; it returns found iff the key occurs,
with the still-locked cursor at the first matching node (index
`findIdx (· == k)`), or at the final null link (index `length`) when the key
is absent. -/
theorem fgFind_characterization (l : List Int) (k : Int) :
    fgFind l k = (l.contains k, l.findIdx (· == k)) := by
  have := fgFindAux_eq k l 0
  rw [fgFind, this]
  rw [Nat.zero_add]

/-- A failed cleanup CAS leaves the heap unchanged: the `Err` carried heap is
the input heap. -/
theorem findCleanup_error (h : OHeap) (prev : Loc) (pn c : Ptr) (fuel : Nat)
    (h' : OHeap) (hr : findCleanup h prev pn c fuel = some (.error h')) :
    h' = h := by
  unfold findCleanup at hr
  split at hr
  · cases hr
  · split at hr
    · cases hr
    · split at hr
      · simp only [] at hr
        split at hr
        · cases hr
        · cases hr
      · cases hr
        rfl

/-- A `Cursor::find` pass that fails validation leaves the heap unchanged. -/
theorem cursorFind_error (h : OHeap) (key : Int) (fuel : Nat) (h' : OHeap)
    (hr : cursorFind h key fuel = some (.error h')) : h' = h := by
  unfold cursorFind at hr
  split at hr
  · cases hr
  · rename_i lr hfl
    split at hr
    · cases hr
    · rename_i herr hfc
      cases hr
      exact findCleanup_error h lr.prev lr.prevNext lr.curr fuel _ hfc
    · cases hr

/-- The outer `find` loop can only surface an `Ok`: the `Err` of a failed
pass is consumed by the retry. -/
theorem oFindE_ok (key : Int) :
    ∀ (fuel : Nat) (h : OHeap) (r : Except Unit (Bool × Loc × Ptr × OHeap × List Nat)),
    oFindE key fuel h = some r → ∃ v, r = Except.ok v := by
  intro fuel
  induction fuel with
  | zero => intro h r hr; cases hr
  | succ f ih =>
    intro h r hr
    unfold oFindE at hr
    split at hr
    · cases hr
    · rename_i h' hcf
      exact ih h' r hr
    · rename_i v hcf
      cases hr
      exact ⟨v, rfl⟩

/-- C8: No user-visible errors — whenever the outer `find` loop of the
optimistic set returns, its result is `Ok` (a CAS failure is retried from
`head` inside the loop, never surfaced), so the `unwrap` in `contains`
cannot panic: `contains` returns a plain boolean whenever `find` returns. -/
theorem find_only_ok (key : Int) (fuel : Nat) (h : OHeap)
    (r : Except Unit (Bool × Loc × Ptr × OHeap × List Nat))
    (hr : oFindE key fuel h = some r) :
    (∃ v, r = Except.ok v) ∧ ∃ b hp, oContains h key fuel = some (b, hp) := by
  rcases oFindE_ok key fuel h r hr with ⟨v, rfl⟩
  refine ⟨⟨v, rfl⟩, v.1, v.2.2.2.1, ?_⟩
  unfold oContains
  rw [hr]

/-- Witness for C8 at a concrete input: on the empty heap with key 0 the
find loop returns `Ok` and `contains` returns a boolean. -/
theorem find_only_ok_witness :
    (∃ v, (Except.ok (false, Loc.headLoc, Ptr.null, emptyHeap, ([] : List Nat)) :
      Except Unit (Bool × Loc × Ptr × OHeap × List Nat)) = Except.ok v) ∧
    ∃ b hp, oContains emptyHeap 0 2 = some (b, hp) :=
  find_only_ok 0 2 emptyHeap _ rfl

/-- The finding phase preserves the untagged-cursor invariant: if `curr`
starts untagged it is untagged when the loop stops (the skip branch strips
the tag with `with_tag(0)`, the advance branch only installs a link it has
checked to be untagged). -/
theorem findLoop_tag (h : OHeap) (key : Int) :
    ∀ (fuel : Nat) (prev : Loc) (curr pn : Ptr) (run : List Nat) (res : LoopRes),
    curr.tag = false → findLoop h key fuel prev curr pn run = some res →
    res.curr.tag = false := by
  intro fuel
  induction fuel with
  | zero => intro _ _ _ _ res _ hr; cases hr
  | succ f ih =>
    intro prev curr pn run res hct hr
    unfold findLoop at hr
    split at hr
    · cases hr
      exact hct
    · rename_i i haddr
      split at hr
      · cases hr
      · rename_i nd hget
        split at hr
        · exact ih _ _ _ _ _ rfl hr
        · rename_i htag
          split at hr
          · exact ih _ _ _ _ _ (Bool.eq_false_iff.2 htag) hr
          · split at hr
            · cases hr
              exact hct
            · cases hr
              exact hct

/-- One `Cursor::find` pass keeps the resting pointer untagged. -/
theorem cursorFind_tag (h : OHeap) (key : Int) (fuel : Nat)
    (r : Bool × Loc × Ptr × OHeap × List Nat)
    (hh : h.head.tag = false) (hr : cursorFind h key fuel = some (.ok r)) :
    r.2.2.1.tag = false := by
  unfold cursorFind at hr
  split at hr
  · cases hr
  · rename_i lr hfl
    have htag := findLoop_tag h key fuel .headLoc h.head h.head [] lr hh hfl
    split at hr
    · cases hr
    · cases hr
    · rename_i v hok
      cases hr
      exact htag

/-- C10: Untagged-cursor invariant — starting from `head` (whose pointer is
untagged), every cursor the optimistic `find` hands out rests on an untagged
pointer: the pointer `insert` CASes in front of and the pointer `remove`
dereferences always carry tag 0. -/
theorem cursor_untagged (key : Int) :
    ∀ (fuel : Nat) (h : OHeap) (r : Bool × Loc × Ptr × OHeap × List Nat),
    h.head.tag = false → oFindE key fuel h = some (.ok r) →
    r.2.2.1.tag = false := by
  intro fuel
  induction fuel with
  | zero => intro h r _ hr; cases hr
  | succ f ih =>
    intro h r hh hr
    unfold oFindE at hr
    split at hr
    · cases hr
    · rename_i h' hcf
      have he := cursorFind_error h key f h' hcf
      exact ih h' r (he ▸ hh) hr
    · rename_i v hcf
      cases hr
      exact cursorFind_tag h key f r hh hcf

/-- Witness for C10 at a concrete input: the cursor `find` returns on the
empty heap carries an untagged pointer. -/
theorem cursor_untagged_witness :
    ((false, Loc.headLoc, Ptr.null, emptyHeap, ([] : List Nat)) :
      Bool × Loc × Ptr × OHeap × List Nat).2.2.1.tag = false :=
  cursor_untagged 0 2 emptyHeap _ rfl rfl

/-- C5: the mutation phase of the optimistic `remove`, for any heap and
cursor aiming at an existing node `i`.  The fetch-or marks the node's link;
if the tag was already set the result is a retry (the surrounding loop
re-runs `find`); otherwise the operation reports `true` in *both* outcomes
of the physical-unlink CAS on the predecessor link, and schedules the node
for deferred destruction exactly when that CAS succeeds. -/
theorem remove_phys_spec (h : OHeap) (prev : Loc) (curr : Ptr) (i : Nat)
    (nd : ONode) (haddr : curr.addr = some i)
    (hget : h.nodes.get? i = some nd) :
    (nd.next.tag = true → removePhys h prev curr =
      some (.retryRes ⟨h.head, setNext h.nodes i ⟨nd.next.addr, true⟩⟩)) ∧
    (∀ obs, nd.next.tag = false →
      loadLoc ⟨h.head, setNext h.nodes i ⟨nd.next.addr, true⟩⟩ prev = some obs →
      (obs = curr → removePhys h prev curr = some (.doneRes true
        (storeLoc ⟨h.head, setNext h.nodes i ⟨nd.next.addr, true⟩⟩ prev nd.next)
        [i])) ∧
      (obs ≠ curr → removePhys h prev curr = some (.doneRes true
        ⟨h.head, setNext h.nodes i ⟨nd.next.addr, true⟩⟩ []))) := by
  constructor
  · intro htag
    unfold removePhys
    rw [haddr]
    dsimp only
    rw [hget]
    dsimp only
    rw [if_pos htag]
  · intro obs htag hload
    constructor
    · intro hobs
      unfold removePhys
      rw [haddr]
      dsimp only
      rw [hget]
      dsimp only
      rw [if_neg (by rw [htag]; exact Bool.false_ne_true), hload]
      dsimp only
      rw [if_pos hobs]
    · intro hobs
      unfold removePhys
      rw [haddr]
      dsimp only
      rw [hget]
      dsimp only
      rw [if_neg (by rw [htag]; exact Bool.false_ne_true), hload]
      dsimp only
      rw [if_neg hobs]

/-- Witness for C5 at a concrete input: a heap whose head no longer aims at
the node being removed — the unlink CAS fails, nothing is scheduled for
destruction, yet `remove` still reports `true` (the logical deletion tag is
set). -/
theorem remove_phys_spec_witness :
    removePhys ⟨Ptr.null, [⟨5, Ptr.null⟩]⟩ .headLoc ⟨some 0, false⟩ =
      some (.doneRes true ⟨Ptr.null, setNext [⟨5, Ptr.null⟩] 0 ⟨none, true⟩⟩ []) :=
  ((remove_phys_spec ⟨Ptr.null, [⟨5, Ptr.null⟩]⟩ .headLoc ⟨some 0, false⟩ 0
    ⟨5, Ptr.null⟩ rfl rfl).2 Ptr.null rfl rfl).2 (by decide)

/-! ### The cleanup phase of `Cursor::find` on a skipped run (C6) -/

/-- An untagged pointer is unchanged by `with_tag(0)`. -/
theorem untag_of_tag_false (p : Ptr) (hp : p.tag = false) : p.untag = p := by
  cases p with
  | mk a t => cases hp; rfl

theorem and_true_split (a b : Bool) (hab : (a && b) = true) : a = true ∧ b = true := by
  rw [Bool.and_eq_true] at hab
  exact hab

theorem and_true_intro (a b : Bool) (ha : a = true) (hb : b = true) : (a && b) = true := by
  rw [Bool.and_eq_true]
  exact ⟨ha, hb⟩

theorem restOk_none_addr (h : OHeap) (c : Ptr) (hca : c.addr = none) :
    restOk h c = true := by
  show (match c.addr with
    | none => true
    | some i =>
      match h.nodes.get? i with
      | none => false
      | some nd => !nd.next.tag) = true
  rw [hca]

theorem restOk_some (h : OHeap) (c : Ptr) (m : Nat) (nd : ONode)
    (hca : c.addr = some m) (hg : h.nodes.get? m = some nd) :
    restOk h c = !nd.next.tag := by
  show (match c.addr with
    | none => true
    | some i =>
      match h.nodes.get? i with
      | none => false
      | some nd => !nd.next.tag) = _
  rw [hca]
  show (match h.nodes.get? m with
    | none => false
    | some nd => !nd.next.tag) = _
  rw [hg]

theorem restOk_invalid (h : OHeap) (c : Ptr) (m : Nat)
    (hca : c.addr = some m) (hg : h.nodes.get? m = none) :
    restOk h c = false := by
  show (match c.addr with
    | none => true
    | some i =>
      match h.nodes.get? i with
      | none => false
      | some nd => !nd.next.tag) = _
  rw [hca]
  show (match h.nodes.get? m with
    | none => false
    | some nd => !nd.next.tag) = _
  rw [hg]

/-- An empty skipped run means predecessor and resting node were adjacent. -/
theorem taggedRun_nil (h : OHeap) (pn c : Ptr)
    (htr : taggedRun h pn [] c = true) : pn = c := by
  have : (pn == c) = true := htr
  exact beq_iff_eq.1 this

/-- A nonempty skipped run starts at the predecessor's old target. -/
theorem taggedRun_cons (h : OHeap) (pn c : Ptr) (a : Nat) (rest : List Nat)
    (htr : taggedRun h pn (a :: rest) c = true) :
    pn = ⟨some a, false⟩ ∧ ∃ nd, h.nodes.get? a = some nd ∧ nd.next.tag = true ∧
      taggedRun h nd.next.untag rest c = true := by
  have h1 := and_true_split _ _ htr
  refine ⟨beq_iff_eq.1 h1.1, ?_⟩
  rcases h2 : h.nodes.get? a with _ | nd
  · exfalso
    have h0 : (match h.nodes.get? a with
      | none => false
      | some nd => nd.next.tag && taggedRun h nd.next.untag rest c) = false := by
      rw [h2]
    have h2' := h1.2
    rw [h0] at h2'
    cases h2'
  · have h3 : (nd.next.tag && taggedRun h nd.next.untag rest c) = true := by
      have h2' := h1.2
      rw [h2] at h2'
      exact h2'
    rcases and_true_split _ _ h3 with ⟨h4, h5⟩
    exact ⟨nd, rfl, h4, h5⟩

/-- Every node of a skipped run is logically deleted (tagged link). -/
theorem taggedRun_tagged (h : OHeap) (c : Ptr) :
    ∀ (run : List Nat) (pn : Ptr), taggedRun h pn run c = true →
    ∀ i ∈ run, ∃ nd, h.nodes.get? i = some nd ∧ nd.next.tag = true := by
  intro run
  induction run with
  | nil => intro pn _ i hi; cases hi
  | cons a rest ih =>
    intro pn htr i hi
    rcases taggedRun_cons h pn c a rest htr with ⟨_, nd, hget, htag, hrest⟩
    rcases List.mem_cons.1 hi with rfl | hi'
    · exact ⟨nd, hget, htag⟩
    · exact ih nd.next.untag hrest i hi'

/-- The resting pointer of a nonempty skipped run is untagged (it is the
`with_tag(0)` of the last skipped node's link). -/
theorem taggedRun_c_tag (h : OHeap) (c : Ptr) :
    ∀ (run : List Nat) (pn : Ptr), run ≠ [] → taggedRun h pn run c = true →
    c.tag = false := by
  intro run
  induction run with
  | nil => intro pn hne _; exact absurd rfl hne
  | cons a rest ih =>
    intro pn _ htr
    rcases taggedRun_cons h pn c a rest htr with ⟨_, nd, _, _, hrest⟩
    cases rest with
    | nil =>
      have := taggedRun_nil h nd.next.untag c hrest
      rw [← this]
      rfl
    | cons b rest' => exact ih nd.next.untag (by simp) hrest

/-- A skipped run only mentions its own nodes: heaps agreeing on them carry
the same run. -/
theorem taggedRun_congr (h h' : OHeap) (c : Ptr) :
    ∀ (run : List Nat) (pn : Ptr),
    (∀ i ∈ run, h'.nodes.get? i = h.nodes.get? i) →
    taggedRun h pn run c = true → taggedRun h' pn run c = true := by
  intro run
  induction run with
  | nil => intro pn _ htr; exact htr
  | cons a rest ih =>
    intro pn hag htr
    rcases taggedRun_cons h pn c a rest htr with ⟨hpn, nd, hget, htag, hrest⟩
    show (pn == ⟨some a, false⟩ &&
      match h'.nodes.get? a with
      | none => false
      | some nd => nd.next.tag && taggedRun h' nd.next.untag rest c) = true
    rw [hag a (List.mem_cons_self a rest), hget]
    refine and_true_intro _ _ (beq_iff_eq.2 hpn) (and_true_intro _ _ htag ?_)
    exact ih nd.next.untag (fun i hi => hag i (List.mem_cons_of_mem _ hi)) hrest

/-- The deferred-destruction walk defers exactly the skipped run. -/
theorem destroyLoop_run (h : OHeap) (c : Ptr) (hrest : restOk h c = true) :
    ∀ (run : List Nat) (node : Ptr) (acc : List Nat) (fuel : Nat),
    taggedRun h node.untag run c = true → run.length + 1 ≤ fuel →
    destroyLoop h c fuel node acc = some (acc ++ run) := by
  intro run
  induction run with
  | nil =>
    intro node acc fuel htr hfuel
    have heq : node.untag = c := taggedRun_nil h node.untag c htr
    match fuel, hfuel with
    | f + 1, _ =>
      unfold destroyLoop
      rw [if_pos heq, List.append_nil]
  | cons a rest ih =>
    intro node acc fuel htr hfuel
    rcases taggedRun_cons h node.untag c a rest htr with ⟨hpn, nd, hget, htag, hrest'⟩
    have hne : node.untag ≠ c := by
      intro heq
      have hca : c.addr = some a := by rw [← heq, hpn]
      have hfalse : restOk h c = false := by
        rw [restOk_some h c a nd hca hget, htag]
        rfl
      rw [hfalse] at hrest
      cases hrest
    have haddr : node.addr = some a := by
      have : node.untag.addr = some a := by rw [hpn]
      exact this
    match fuel, hfuel with
    | f + 1, hfuel =>
      unfold destroyLoop
      rw [if_neg hne, haddr]
      dsimp only
      rw [hget]
      dsimp only
      rw [ih nd.next (acc ++ [a]) f hrest' (by
        have := hfuel
        rw [List.length_cons] at this
        omega)]
      rw [List.append_assoc]
      rfl

/-- C6: the cleanup phase of `Cursor::find`, for any heap, predecessor link,
remembered target `pn`, resting pointer `c` and skipped run.  When
predecessor and resting node were adjacent, no CAS happens and the heap is
untouched.  Otherwise exactly one CAS on the predecessor link from `pn` to
`c` is attempted: on success the heap change is that single store, the
scheduled nodes are exactly the skipped run (all of them logically deleted,
and the run is nonempty); on failure the pass gives up (`Err`) with the heap
untouched and nothing scheduled — the outer `find` then retries from
`head`. -/
theorem find_cleanup_spec (h : OHeap) (prev : Loc) (pn c : Ptr)
    (run : List Nat) (fuel : Nat)
    (htr : taggedRun h pn run c = true) (hrest : restOk h c = true)
    (hfuel : run.length + 1 ≤ fuel) :
    (pn = c → findCleanup h prev pn c fuel = some (.ok (h, [], false))) ∧
    (pn ≠ c → loadLoc h prev = some pn →
      findCleanup h prev pn c fuel = some (.ok (storeLoc h prev c, run, true)) ∧
      run ≠ [] ∧
      ∀ i ∈ run, ∃ nd, h.nodes.get? i = some nd ∧ nd.next.tag = true) ∧
    (∀ obs, pn ≠ c → loadLoc h prev = some obs → obs ≠ pn →
      findCleanup h prev pn c fuel = some (.error h)) := by
  refine ⟨?_, ?_, ?_⟩
  · intro hpc
    unfold findCleanup
    rw [if_pos hpc]
  · intro hpc hload
    have hrun_ne : run ≠ [] := by
      intro hrun
      exact hpc (taggedRun_nil h pn c (hrun ▸ htr))
    rcases run with _ | ⟨a, rest⟩
    · exact absurd rfl hrun_ne
    rcases taggedRun_cons h pn c a rest htr with ⟨hpn, nd₀, hget₀, htag₀, _⟩
    have hctag : c.tag = false := taggedRun_c_tag h c (a :: rest) pn (by simp) htr
    have hpn_tag : pn.tag = false := by rw [hpn]
    -- the CAS touches only the predecessor link, never a run node's link
    have hprev_ne : ∀ i ∈ a :: rest, prev ≠ .nodeLoc i := by
      intro i hi hpe
      rcases taggedRun_tagged h c (a :: rest) pn htr i hi with ⟨nd, hget, htag⟩
      rw [hpe] at hload
      have hnext : nd.next = pn := by
        have hl : (h.nodes.get? i).map ONode.next = some pn := hload
        rw [hget] at hl
        exact Option.some.inj hl
      rw [hnext, hpn_tag] at htag
      cases htag
    have hag : ∀ i ∈ a :: rest, (storeLoc h prev c).nodes.get? i = h.nodes.get? i :=
      fun i hi => storeLoc_nodes_get h prev c i (hprev_ne i hi)
    have htr' : taggedRun (storeLoc h prev c) pn (a :: rest) c = true :=
      taggedRun_congr h _ c (a :: rest) pn hag htr
    -- the resting node's link stays untagged in the post-CAS heap
    have hrest' : restOk (storeLoc h prev c) c = true := by
      rcases hcaddr : c.addr with _ | m
      · exact restOk_none_addr _ c hcaddr
      · rcases hgm : h.nodes.get? m with _ | ndm
        · exfalso
          have hfalse := restOk_invalid h c m hcaddr hgm
          rw [hfalse] at hrest
          cases hrest
        · have hnt : ndm.next.tag = false := by
            have hr := restOk_some h c m ndm hcaddr hgm
            rw [hr] at hrest
            simpa using hrest
          by_cases hpm : prev = .nodeLoc m
          · have hg' : (storeLoc h prev c).nodes.get? m = some ⟨ndm.data, c⟩ := by
              rw [hpm]
              exact setNext_get_eq h.nodes m c ndm hgm
            rw [restOk_some _ c m ⟨ndm.data, c⟩ hcaddr hg', hctag]
            rfl
          · have hg' : (storeLoc h prev c).nodes.get? m = some ndm := by
              rw [storeLoc_nodes_get h prev c m hpm]
              exact hgm
            rw [restOk_some _ c m ndm hcaddr hg', hnt]
            rfl
    have hdl := destroyLoop_run (storeLoc h prev c) c hrest' (a :: rest) pn [] fuel
      (by rw [untag_of_tag_false pn hpn_tag]; exact htr') hfuel
    rw [List.nil_append] at hdl
    refine ⟨?_, hrun_ne, taggedRun_tagged h c (a :: rest) pn htr⟩
    unfold findCleanup
    rw [if_neg hpc, hload]
    show (if pn = pn then
        match destroyLoop (storeLoc h prev c) c fuel pn [] with
        | none => none
        | some d => some (Except.ok (storeLoc h prev c, d, true))
      else some (Except.error h)) = _
    rw [if_pos rfl, hdl]
  · intro obs hpc hload hobs
    unfold findCleanup
    rw [if_neg hpc, hload]
    show (if obs = pn then
        match destroyLoop (storeLoc h prev c) c fuel pn [] with
        | none => none
        | some d => some (Except.ok (storeLoc h prev c, d, true))
      else some (Except.error h)) = _
    rw [if_neg hobs]

/-- Witness for C6 at a concrete input: head aims at a logically deleted
node 0 whose link leads to the live node 1; the cleanup CAS re-aims `head`
at node 1 and schedules exactly node 0 — which was tagged. -/
theorem find_cleanup_spec_witness :
    findCleanup ⟨⟨some 0, false⟩, [⟨5, ⟨some 1, true⟩⟩, ⟨7, Ptr.null⟩]⟩ .headLoc
      ⟨some 0, false⟩ ⟨some 1, false⟩ 2 =
      some (.ok (storeLoc ⟨⟨some 0, false⟩, [⟨5, ⟨some 1, true⟩⟩, ⟨7, Ptr.null⟩]⟩
        .headLoc ⟨some 1, false⟩, [0], true)) ∧
    ([0] : List Nat) ≠ [] ∧
    ∀ i ∈ ([0] : List Nat), ∃ nd,
      (⟨⟨some 0, false⟩, [⟨5, ⟨some 1, true⟩⟩, ⟨7, Ptr.null⟩]⟩ : OHeap).nodes.get? i =
        some nd ∧ nd.next.tag = true :=
  (find_cleanup_spec ⟨⟨some 0, false⟩, [⟨5, ⟨some 1, true⟩⟩, ⟨7, Ptr.null⟩]⟩
    .headLoc ⟨some 0, false⟩ ⟨some 1, false⟩ [0] 2 (by decide) (by decide)
    (by decide)).2.1 (by decide) rfl

end RustConcurrent
